import Mathlib

/-! A verification development for the `wordpress` REST client (Go).

The development embeds the request pipeline of `client.go`, the users collection of
`users.go` and the revisions collection of `revisions.go`.

Conventions of the embedding.

* A Go `string` is a sequence of bytes (`GoString`).  String literals of the source are
  written `utf8 "..."`.
* A request is the value that the source hands to `httpClient.Do`; the operations return
  `Except GoError Request`, the error case being the early `return nil, nil, err`.
* The standard library (`net/url`, `encoding/json`, `fmt`) is embedded by the functions
  the source calls, at the level of detail the source depends on.  What is left out is
  said at the definition.
-/

namespace Wordpress

/-! ## Go strings -/

/-- One byte. -/
abbrev Byte := Fin 256

/-- A Go `string`: an immutable sequence of bytes. -/
abbrev GoString := List Byte

/-- Truncation of a natural number to a byte. -/
def byteOf (n : Nat) : Byte := ⟨n % 256, Nat.mod_lt _ (by decide)⟩

/-- UTF-8 encoding of one character, as the Go compiler stores a literal. -/
def utf8Char (c : Char) : GoString :=
  let n := c.val.toNat
  if n < 0x80 then [byteOf n]
  else if n < 0x800 then [byteOf (0xC0 + n / 64), byteOf (0x80 + n % 64)]
  else if n < 0x10000 then
    [byteOf (0xE0 + n / 4096), byteOf (0x80 + n / 64 % 64), byteOf (0x80 + n % 64)]
  else
    [byteOf (0xF0 + n / 262144), byteOf (0x80 + n / 4096 % 64), byteOf (0x80 + n / 64 % 64),
      byteOf (0x80 + n % 64)]

/-- The bytes of a string literal. -/
def utf8 (s : String) : GoString := s.data.flatMap utf8Char

/-- Decimal digits of a natural number, most significant first (`fuel` bounds the length). -/
def natDigitsAux : Nat → Nat → List Nat → List Nat
  | 0, _, acc => acc
  | fuel + 1, n, acc =>
    if n < 10 then n :: acc else natDigitsAux fuel (n / 10) (n % 10 :: acc)

/-- Decimal digits of a natural number, most significant first; `0` gives `[0]`. -/
def natDigits (n : Nat) : List Nat := natDigitsAux (n + 1) n []

/-- The ASCII byte of a decimal digit. -/
def digitByte (d : Nat) : Byte := byteOf (48 + d)

/-- The function `strconv.Itoa` on a natural number. -/
def fmtNat (n : Nat) : GoString := (natDigits n).map digitByte

/-- The text `fmt.Sprintf("%v", n)` for a Go `int`: an optional minus sign and the decimal digits. -/
def fmtInt (n : Int) : GoString :=
  if n < 0 then byteOf 45 :: fmtNat n.natAbs else fmtNat n.natAbs

/-- Bytewise lexicographic order on strings, the order of `sort.Strings`. -/
def bytesLE : GoString → GoString → Bool
  | [], _ => true
  | _ :: _, [] => false
  | a :: as, b :: bs => if a.val < b.val then true else if b.val < a.val then false else bytesLE as bs

/-! ## `net/url`: query escaping -/

/-- Bytes that `url.QueryEscape` leaves as they are: letters, digits, `-`, `_`, `.`, `~`. -/
def unreserved (b : Byte) : Bool :=
  (48 ≤ b.val && b.val ≤ 57) || (65 ≤ b.val && b.val ≤ 90) || (97 ≤ b.val && b.val ≤ 122) ||
    b.val == 45 || b.val == 95 || b.val == 46 || b.val == 126

/-- Upper-case hexadecimal digit of a value below 16. -/
def hexDigit (n : Nat) : Byte := if n < 10 then byteOf (48 + n) else byteOf (55 + n)

/-- Escaping of one byte in query-component mode. -/
def escapeByte (b : Byte) : GoString :=
  if unreserved b then [b]
  else if b.val = 32 then [byteOf 43]
  else [byteOf 37, hexDigit (b.val / 16), hexDigit (b.val % 16)]

/-- The function `url.QueryEscape`. -/
def QueryEscape (s : GoString) : GoString := s.flatMap escapeByte

/-- Value of a hexadecimal digit, either case. -/
def unhex (b : Byte) : Option Nat :=
  if 48 ≤ b.val ∧ b.val ≤ 57 then some (b.val - 48)
  else if 97 ≤ b.val ∧ b.val ≤ 102 then some (b.val - 87)
  else if 65 ≤ b.val ∧ b.val ≤ 70 then some (b.val - 55)
  else none

/-- The function `url.QueryUnescape`: `none` stands for the `EscapeError`. -/
def QueryUnescape : GoString → Option GoString
  | [] => some []
  | b :: rest =>
    if b.val = 37 then
      match rest with
      | h1 :: h2 :: rest2 =>
        match unhex h1, unhex h2 with
        | some x, some y => (QueryUnescape rest2).map (fun r => byteOf (x * 16 + y) :: r)
        | _, _ => none
      | _ => none
    else if b.val = 43 then (QueryUnescape rest).map (fun r => byteOf 32 :: r)
    else (QueryUnescape rest).map (fun r => b :: r)

/-! ## `net/url`: `Values` -/

/-- The type `url.Values`, built with `Add` only: the key/value pairs in the order in which
they were added.  The Go map groups them by key and keeps, for each key, the values in
insertion order; `Encode` (below) reads exactly that. -/
abbrev Values := List (GoString × GoString)

/-- The method `Values.Add`. -/
def Values.Add (v : Values) (key value : GoString) : Values := v ++ [(key, value)]

/-- Order of two pairs by key. -/
def keyLE (a b : GoString × GoString) : Prop := bytesLE a.1 b.1 = true

instance : DecidableRel keyLE := fun a b => inferInstanceAs (Decidable (bytesLE a.1 b.1 = true))

/-- The pairs as `Encode` visits them: keys in sorted order, the values of one key in
insertion order (a stable sort by key). -/
def sortPairs (v : Values) : Values := List.insertionSort keyLE v

/-- One `key=value` item of an encoded query. -/
def encodePair (p : GoString × GoString) : GoString :=
  QueryEscape p.1 ++ byteOf 61 :: QueryEscape p.2

/-- Items joined with `&`. -/
def joinAmp : List GoString → GoString
  | [] => []
  | [x] => x
  | x :: y :: rest => x ++ byteOf 38 :: joinAmp (y :: rest)

/-- The method `Values.Encode`: "URL encoded" form sorted by key. -/
def Values.Encode (v : Values) : GoString := joinAmp ((sortPairs v).map encodePair)

/-- The function `strings.Cut` with a one-byte separator: the text before the first
separator, the text after it, and whether the separator was found. -/
def cut (sep : Byte) : GoString → GoString × GoString × Bool
  | [] => ([], [], false)
  | b :: rest =>
    if b = sep then ([], rest, true)
    else
      let r := cut sep rest
      (b :: r.1, r.2.1, r.2.2)

/-- The items of a query, split at `&` (the loop of `parseQuery`, `fuel` bounds it). -/
def splitAmp : Nat → GoString → List GoString
  | 0, _ => []
  | fuel + 1, q =>
    if q = [] then []
    else
      let r := cut (byteOf 38) q
      r.1 :: splitAmp fuel r.2.1

/-- One item of `parseQuery`: dropped when empty, when it holds a semicolon or when an
escape is malformed (the error is ignored by `URL.Query`). -/
def parseItem (item : GoString) : Option (GoString × GoString) :=
  if byteOf 59 ∈ item then none
  else if item = [] then none
  else
    let r := cut (byteOf 61) item
    match QueryUnescape r.1, QueryUnescape r.2.1 with
    | some k, some v => some (k, v)
    | _, _ => none

/-- The function `url.ParseQuery` as `URL.Query` uses it (errors dropped). -/
def ParseQuery (q : GoString) : Values := (splitAmp (q.length + 1) q).filterMap parseItem

/-! ## `net/url`: the `URL` structure -/

/-- Errors of the embedded library calls. -/
inductive GoError
  | invalidURL
  | invalidMethod
  | marshal
  | nilDereference
  deriving DecidableEq, Repr

/-- The fields of `url.URL` that the client reads or writes.  `head` is everything before
the query (scheme, authority and path), carried as written: the structure stands for the
parsed URL of a text whose scheme is in lower case and whose path needs no escaping, as
the texts in plain form are (`plainURL` below). -/
structure URL where
  head : GoString
  forceQuery : Bool
  rawQuery : GoString
  fragment : GoString
  deriving DecidableEq, Repr

/-- ASCII control bytes, which `url.Parse` refuses. -/
def isCTL (b : Byte) : Bool := b.val < 32 || b.val == 127

/-- The function `url.Parse`: the fragment is cut at the first `#`, then the query at the
first `?`; a lone trailing `?` sets `ForceQuery`.  Of the validity checks, the one on
control bytes is embedded.  The checks of the scheme, of the host and port and of the
percent escapes are not, nor is the lower-casing of the scheme; none of them applies to
a text in plain form (`plainURL` below), on which the result is that of `url.Parse`. -/
def urlParse (raw : GoString) : Except GoError URL :=
  let f := cut (byteOf 35) raw
  let u := f.1
  if u.any isCTL then .error .invalidURL
  else if u.getLast? = some (byteOf 63) ∧ u.count (byteOf 63) = 1 then
    .ok { head := u.dropLast, forceQuery := true, rawQuery := [], fragment := f.2.1 }
  else
    let q := cut (byteOf 63) u
    .ok { head := q.1, forceQuery := false, rawQuery := q.2.1, fragment := f.2.1 }

/-- The method `URL.String`: the head as it was read, the query after `?`, the fragment
after `#`.  The method writes an escaped path; the path of a text in plain form is its
own escaped form. -/
def URL.String (u : URL) : GoString :=
  u.head ++ (if u.forceQuery || u.rawQuery ≠ [] then byteOf 63 :: u.rawQuery else []) ++
    (if u.fragment ≠ [] then byteOf 35 :: u.fragment else [])

/-- The method `URL.Query`: the parsed `RawQuery`, a fresh value on every call. -/
def URL.Query (u : URL) : Values := ParseQuery u.rawQuery

/-! ## `net/http`: requests -/

/-- The type `http.Header`, keys in canonical form. -/
abbrev Header := List (GoString × GoString)

/-- Bytes allowed in a header field name (the token characters). -/
def validHeaderFieldByte (b : Byte) : Bool :=
  (48 ≤ b.val && b.val ≤ 57) || (65 ≤ b.val && b.val ≤ 90) || (97 ≤ b.val && b.val ≤ 122) ||
    b ∈ utf8 "!#$%&*+-.^_|~" || b.val == 39 || b.val == 96

/-- The letter-case pass of the canonical form: upper case at the start and after a
hyphen, lower case elsewhere. -/
def canonCase : Bool → GoString → GoString
  | _, [] => []
  | upper, c :: rest =>
    let c1 : Byte :=
      if upper ∧ 97 ≤ c.val ∧ c.val ≤ 122 then byteOf (c.val - 32)
      else if ¬ upper ∧ 65 ≤ c.val ∧ c.val ≤ 90 then byteOf (c.val + 32)
      else c
    c1 :: canonCase (c1.val == 45) rest

/-- The function `textproto.CanonicalMIMEHeaderKey`: a name with a space or with a byte
that is no token character is returned unchanged. -/
def canonicalKey (key : GoString) : GoString :=
  if key.all validHeaderFieldByte then canonCase true key else key

/-- The method `Header.Set`: the value replaces what the canonical key held. -/
def Header.Set (h : Header) (key value : GoString) : Header :=
  h.filter (fun p => p.1 ≠ canonicalKey key) ++ [(canonicalKey key, value)]

/-- The method `Header.Get`. -/
def Header.Get (h : Header) (key : GoString) : Option GoString :=
  (h.find? (fun p => p.1 = canonicalKey key)).map Prod.snd

/-- The request handed to `httpClient.Do`.  `basicAuth` is the credential pair that
`SetBasicAuth` stored (the `Authorization` header before its base64 encoding). -/
structure Request where
  method : GoString
  url : URL
  header : Header
  basicAuth : Option (GoString × GoString)
  body : Option GoString
  deriving DecidableEq, Repr

/-- The methods that `http.NewRequest` is called with in this package are valid tokens;
an empty method stands for `GET`, other texts are checked to be letters. -/
def validMethod (m : GoString) : Bool :=
  m.all (fun b => (65 ≤ b.val && b.val ≤ 90) || (97 ≤ b.val && b.val ≤ 122))

/-- The function `http.NewRequest`. -/
def NewRequest (method url : GoString) (body : Option GoString) : Except GoError Request :=
  if validMethod method then
    match urlParse url with
    | .ok u => .ok { method := method, url := u, header := [], basicAuth := none, body := body }
    | .error e => .error e
  else .error .invalidMethod

/-- The method `Request.SetBasicAuth`. -/
def Request.SetBasicAuth (r : Request) (username password : GoString) : Request :=
  { r with basicAuth := some (username, password) }

/-- The assignment `req.Header.Set(key, value)`. -/
def Request.setHeader (r : Request) (key value : GoString) : Request :=
  { r with header := Header.Set r.header key value }

/-- The assignment `req.URL.RawQuery = q`. -/
def Request.setRawQuery (r : Request) (q : GoString) : Request :=
  { r with url := { r.url with rawQuery := q } }

/-! ## Go values passed as `interface{}` -/

/-- The dynamic values that callers pass as `params` or `content`.

* `nil` is the untyped nil interface; `nilPtr` a nil pointer of some type; `nilOther` a nil
  map or nil slice of some type.
* `record` is a `map[string]interface{}`, given by its entries.
* `struct` is a struct value, given by the members that `json.Marshal` writes for it, under
  their JSON names and in the order of the declaration.
* `mapSS` is a `map[string]string`, `urlValues` a `url.Values` (a value list may be nil).
* `chan` stands for the values that `json.Marshal` refuses (channels, functions).

A Go `int` is carried as an integer; the operations are exact on the 64-bit range. -/
inductive GoValue
  | nil
  | nilPtr
  | nilOther
  | str (s : GoString)
  | bool (b : Bool)
  | int (n : Int)
  | slice (xs : List GoValue)
  | record (fields : List (GoString × GoValue))
  | struct (fields : List (GoString × GoValue))
  | mapSS (m : List (GoString × GoString))
  | urlValues (m : List (GoString × Option (List GoString)))
  | ptr (v : GoValue)
  | chan

/-- The values that `json.Unmarshal` stores in an `interface{}`: nil, `bool`, `float64`,
`string`, `[]interface{}` and `map[string]interface{}`.  The `float64` of this development
always holds an integer, which `num` carries exactly. -/
inductive JVal
  | null
  | bool (b : Bool)
  | num (f : Int)
  | str (s : GoString)
  | arr (xs : List JVal)
  | obj (m : List (GoString × JVal))

/-- The test `params != nil` on an interface value: only the untyped nil is nil. -/
def GoValue.isNil : GoValue → Bool
  | .nil => true
  | _ => false

/-! ### `float64` -/

/-- Number of binary digits of a natural number (`fuel` bounds the loop). -/
def bitLenAux : Nat → Nat → Nat
  | 0, _ => 0
  | fuel + 1, n => if n = 0 then 0 else bitLenAux fuel (n / 2) + 1

/-- Number of binary digits of a natural number. -/
def bitLen (n : Nat) : Nat := bitLenAux (n + 1) n

/-- The `float64` nearest to a natural number (ties to even), as an exact integer: the
conversion that `json.Unmarshal` applies to a number literal without fraction. -/
def roundFloat64 (n : Nat) : Nat :=
  if bitLen n ≤ 53 then n
  else
    let e := bitLen n - 53
    let q := n / 2 ^ e
    let r := n % 2 ^ e
    let half := 2 ^ (e - 1)
    let q1 := if half < r ∨ (r = half ∧ q % 2 = 1) then q + 1 else q
    q1 * 2 ^ e

/-- Digits without the trailing zeros. -/
def stripZeros (ds : List Nat) : List Nat := (ds.reverse.dropWhile (fun d => d == 0)).reverse

/-- The candidates with `k` significant digits next to `f`, the nearer one first. -/
def candidates (f k : Nat) : List Nat :=
  let nd := (natDigits f).length
  let scale := 10 ^ (nd - k)
  let lo := f / scale * scale
  let hi := lo + scale
  if f - lo ≤ hi - f then [lo, hi] else [hi, lo]

/-- Search of the shortest decimal that converts back to the float `f` (`fuel` digits are
still to be tried, starting with `k`). -/
def shortestAux (f : Nat) : Nat → Nat → Nat
  | 0, _ => f
  | fuel + 1, k =>
    match (candidates f k).find? (fun c => roundFloat64 c == f) with
    | some c => c
    | none => shortestAux f fuel (k + 1)

/-- The shortest decimal that converts back to the integer-valued float `f`
(`strconv` in its shortest mode). -/
def shortest (f : Nat) : Nat := shortestAux f (natDigits f).length 1

/-- The exponent of the `%e` form: a sign and at least two digits. -/
def fmtExp (e : Nat) : GoString :=
  utf8 "e+" ++ (if e < 10 then digitByte 0 :: fmtNat e else fmtNat e)

/-- The text `strconv.FormatFloat(f, 'g', -1, 64)` of a non-negative integer-valued float:
the `%e` form as soon as the decimal exponent reaches 6, the plain digits below. -/
def fmtFloatNat (f : Nat) : GoString :=
  let s := shortest f
  let dp := (natDigits s).length
  let ds := stripZeros (natDigits s)
  if s = 0 then utf8 "0"
  else if 6 ≤ dp - 1 then
    match ds with
    | [] => utf8 "0"
    | d :: [] => digitByte d :: fmtExp (dp - 1)
    | d :: rest => digitByte d :: byteOf 46 :: rest.map digitByte ++ fmtExp (dp - 1)
  else fmtNat s

/-- The text `fmt.Sprintf("%v", f)` of an integer-valued `float64`. -/
def fmtFloat (f : Int) : GoString :=
  if f < 0 then byteOf 45 :: fmtFloatNat f.natAbs else fmtFloatNat f.natAbs

/-- The `float64` of an integer literal. -/
def floatOfInt (n : Int) : Int :=
  if n < 0 then - (roundFloat64 n.natAbs : Int) else (roundFloat64 n.natAbs : Int)

/-! ### `encoding/json` -/

/-- Length of the UTF-8 sequence that starts a string, `0` when the first byte does not
start a valid sequence (the acceptance ranges of `utf8.DecodeRuneInString`). -/
def utf8SeqLen : GoString → Nat
  | [] => 0
  | b0 :: rest =>
    let cont := fun (b : Byte) => 0x80 ≤ b.val && b.val ≤ 0xBF
    if b0.val < 0x80 then 1
    else if 0xC2 ≤ b0.val ∧ b0.val ≤ 0xDF then
      match rest with
      | b1 :: _ => if cont b1 then 2 else 0
      | _ => 0
    else if 0xE0 ≤ b0.val ∧ b0.val ≤ 0xEF then
      match rest with
      | b1 :: b2 :: _ =>
        let lo := if b0.val = 0xE0 then 0xA0 else 0x80
        let hi := if b0.val = 0xED then 0x9F else 0xBF
        if lo ≤ b1.val ∧ b1.val ≤ hi ∧ cont b2 then 3 else 0
      | _ => 0
    else if 0xF0 ≤ b0.val ∧ b0.val ≤ 0xF4 then
      match rest with
      | b1 :: b2 :: b3 :: _ =>
        let lo := if b0.val = 0xF0 then 0x90 else 0x80
        let hi := if b0.val = 0xF4 then 0x8F else 0xBF
        if lo ≤ b1.val ∧ b1.val ≤ hi ∧ cont b2 ∧ cont b3 then 4 else 0
      | _ => 0
    else 0

/-- A string after `json.Marshal` and `json.Unmarshal`: valid sequences are kept, every
byte that starts none becomes U+FFFD (`fuel` bounds the loop). -/
def jsonStringAux : Nat → GoString → GoString
  | 0, _ => []
  | fuel + 1, s =>
    match s with
    | [] => []
    | b :: rest =>
      let n := utf8SeqLen (b :: rest)
      if n = 0 then byteOf 0xEF :: byteOf 0xBF :: byteOf 0xBD :: jsonStringAux fuel rest
      else (b :: rest).take n ++ jsonStringAux fuel ((b :: rest).drop n)

/-- A string after `json.Marshal` and `json.Unmarshal`. -/
def jsonString (s : GoString) : GoString := jsonStringAux s.length s

/-- The assignment `m[key] = value` on a map kept as an association list. -/
def mapInsert (m : List (GoString × JVal)) (key : GoString) (value : JVal) :
    List (GoString × JVal) :=
  if m.any (fun p => p.1 = key) then m.map (fun p => if p.1 = key then (key, value) else p)
  else m ++ [(key, value)]

/-- The map that `json.Unmarshal` builds from the members of an object, a later member
replacing an earlier one of the same key. -/
def mkMap (members : List (GoString × JVal)) : List (GoString × JVal) :=
  members.foldl (fun acc p => mapInsert acc p.1 p.2) []

mutual
/-- The composition `json.Unmarshal(json.Marshal(v), &x)` for `x` of type `interface{}`:
`none` when `json.Marshal` fails. -/
def toGeneric : GoValue → Option JVal
  | .nil => some .null
  | .nilPtr => some .null
  | .nilOther => some .null
  | .str s => some (.str (jsonString s))
  | .bool b => some (.bool b)
  | .int n => some (.num (floatOfInt n))
  | .slice xs => (toGenericList xs).map JVal.arr
  | .record fields => (toGenericFields fields).map (fun fs => JVal.obj (mkMap fs))
  | .struct fields => (toGenericFields fields).map (fun fs => JVal.obj (mkMap fs))
  | .mapSS m => some (.obj (mkMap (m.map (fun p => (jsonString p.1, JVal.str (jsonString p.2))))))
  | .urlValues m =>
    some (.obj (mkMap (m.map (fun p => (jsonString p.1,
      match p.2 with
      | none => JVal.null
      | some vs => JVal.arr (vs.map (fun v => JVal.str (jsonString v))))))))
  | .ptr v => toGeneric v
  | .chan => none
/-- The elements of a slice. -/
def toGenericList : List GoValue → Option (List JVal)
  | [] => some []
  | x :: xs =>
    match toGeneric x, toGenericList xs with
    | some y, some ys => some (y :: ys)
    | _, _ => none
/-- The entries of a map or the members of a struct, in the order given. -/
def toGenericFields : List (GoString × GoValue) → Option (List (GoString × JVal))
  | [] => some []
  | (k, x) :: rest =>
    match toGeneric x, toGenericFields rest with
    | some y, some ys => some ((jsonString k, y) :: ys)
    | _, _ => none
end

/-- The statements `jsonParams, _ := json.Marshal(params)`, `var mapParams
map[string]interface{}` and `_ = json.Unmarshal(jsonParams, &mapParams)`: the entries of
`mapParams`.  It stays nil, with no entry, when the encoding fails or is not an object. -/
def mapParams (params : GoValue) : List (GoString × JVal) :=
  match toGeneric params with
  | some (.obj m) => m
  | _ => []

/-! ### `fmt` -/

/-- The entries of a map in the order of their keys, the order in which `fmt` prints a map
and `json.Marshal` writes one. -/
def sortByKey {α : Type} (m : List (GoString × α)) : List (GoString × α) :=
  List.insertionSort (fun a b => bytesLE a.1 b.1 = true) m

/-- Texts joined with one space. -/
def joinSpace : List GoString → GoString
  | [] => []
  | [x] => x
  | x :: y :: rest => x ++ byteOf 32 :: joinSpace (y :: rest)

mutual
/-- The text `fmt.Sprintf("%v", v)` of a value that `json.Unmarshal` produced. -/
def sprintV : JVal → GoString
  | .null => utf8 "<nil>"
  | .bool b => if b then utf8 "true" else utf8 "false"
  | .num f => fmtFloat f
  | .str s => s
  | .arr xs => utf8 "[" ++ joinSpace (sprintVList xs) ++ utf8 "]"
  | .obj m =>
    utf8 "map[" ++
      joinSpace ((sortByKey (sprintVEntries m)).map (fun p => p.1 ++ byteOf 58 :: p.2)) ++
      utf8 "]"
/-- The texts of the elements of a slice. -/
def sprintVList : List JVal → List GoString
  | [] => []
  | x :: xs => sprintV x :: sprintVList xs
/-- The keys of a map with the texts of their values; `fmt` prints them as `key:value`
in the order of the keys. -/
def sprintVEntries : List (GoString × JVal) → List (GoString × GoString)
  | [] => []
  | (k, x) :: rest => (k, sprintV x) :: sprintVEntries rest
end

/-! ## The flattening loops of `client.go` -/

/-- The loop `for k, v := range mapParams { q.Add(k, fmt.Sprintf("%v", v)) }`. -/
def addWhole (q : Values) (m : List (GoString × JVal)) : Values :=
  m.foldl (fun acc p => Values.Add acc p.1 (sprintV p.2)) q

/-- The body of the loop with the type switch: a `[]interface{}` adds one pair per
element, any other value one pair. -/
def addEntry (q : Values) (k : GoString) (v : JVal) : Values :=
  match v with
  | .arr items => items.foldl (fun acc item => Values.Add acc k (sprintV item)) q
  | val => Values.Add q k (sprintV val)

/-- The loop `for k, v := range mapParams { switch val := v.(type) ... }`. -/
def addFlat (q : Values) (m : List (GoString × JVal)) : Values :=
  m.foldl (fun acc p => addEntry acc p.1 p.2) q

/-! ### `json.Marshal` -/

/-- Lower-case hexadecimal digit of a value below 16. -/
def hexLower (n : Nat) : Byte := if n < 10 then byteOf (48 + n) else byteOf (87 + n)

/-- One byte of a string inside a JSON string literal, HTML escaping on: quotes and
backslashes get a backslash, backspace, form feed, line feed, carriage return and tab
their short forms, other control bytes and `<`, `>`, `&` the form `\u00XX`. -/
def jsonByte (b : Byte) : GoString :=
  if b.val = 34 then utf8 "\\\""
  else if b.val = 92 then utf8 "\\\\"
  else if b.val = 8 then utf8 "\\b"
  else if b.val = 12 then utf8 "\\f"
  else if b.val = 10 then utf8 "\\n"
  else if b.val = 13 then utf8 "\\r"
  else if b.val = 9 then utf8 "\\t"
  else if b.val < 32 ∨ b.val = 60 ∨ b.val = 62 ∨ b.val = 38 then
    utf8 "\\u00" ++ [hexLower (b.val / 16), hexLower (b.val % 16)]
  else [b]

/-- The bytes of a string inside a JSON string literal: the line separators U+2028 and
U+2029 (three bytes each) are written as the escapes of their code points, every other
byte as `jsonByte` says.  `skip` counts the bytes of a separator still to be passed. -/
def jsonBytesAux : Nat → GoString → GoString
  | _, [] => []
  | skip + 1, _ :: rest => jsonBytesAux skip rest
  | 0, b0 :: rest =>
    if b0.val = 0xE2 ∧ rest.take 2 = [byteOf 0x80, byteOf 0xA8] then
      utf8 "\\u2028" ++ jsonBytesAux 2 rest
    else if b0.val = 0xE2 ∧ rest.take 2 = [byteOf 0x80, byteOf 0xA9] then
      utf8 "\\u2029" ++ jsonBytesAux 2 rest
    else jsonByte b0 ++ jsonBytesAux 0 rest

/-- The bytes of a string inside a JSON string literal. -/
def jsonBytes (s : GoString) : GoString := jsonBytesAux 0 s

/-- A JSON string literal; bytes that are not valid UTF-8 are written as U+FFFD. -/
def jsonQuote (s : GoString) : GoString :=
  byteOf 34 :: jsonBytes (jsonString s) ++ [byteOf 34]

/-- Texts joined with a comma. -/
def joinComma : List GoString → GoString
  | [] => []
  | [x] => x
  | x :: y :: rest => x ++ byteOf 44 :: joinComma (y :: rest)

/-- One member `"key":value` of a JSON object. -/
def jsonMember (p : GoString × GoString) : GoString := jsonQuote p.1 ++ byteOf 58 :: p.2

mutual
/-- The function `json.Marshal`: the JSON text, or `none` for the `UnsupportedTypeError`.
A map is written in the order of its keys, a struct in the order of its members. -/
def jsonMarshal : GoValue → Option GoString
  | .nil => some (utf8 "null")
  | .nilPtr => some (utf8 "null")
  | .nilOther => some (utf8 "null")
  | .str s => some (jsonQuote s)
  | .bool b => some (if b then utf8 "true" else utf8 "false")
  | .int n => some (fmtInt n)
  | .slice xs => (jsonMarshalList xs).map (fun ts => utf8 "[" ++ joinComma ts ++ utf8 "]")
  | .record fields =>
    (jsonMarshalFields fields).map (fun ts =>
      utf8 "\x7b" ++ joinComma ((sortByKey ts).map jsonMember) ++ utf8 "\x7d")
  | .struct fields =>
    (jsonMarshalFields fields).map (fun ts =>
      utf8 "\x7b" ++ joinComma (ts.map jsonMember) ++ utf8 "\x7d")
  | .mapSS m =>
    some (utf8 "\x7b" ++
      joinComma ((sortByKey m).map (fun p => jsonQuote p.1 ++ byteOf 58 :: jsonQuote p.2)) ++
      utf8 "\x7d")
  | .urlValues m =>
    some (utf8 "\x7b" ++
      joinComma ((sortByKey m).map (fun p => jsonQuote p.1 ++ byteOf 58 ::
        (match p.2 with
         | none => utf8 "null"
         | some vs => utf8 "[" ++ joinComma (vs.map jsonQuote) ++ utf8 "]"))) ++
      utf8 "\x7d")
  | .ptr v => jsonMarshal v
  | .chan => none
/-- The texts of the elements of a slice. -/
def jsonMarshalList : List GoValue → Option (List GoString)
  | [] => some []
  | x :: xs =>
    match jsonMarshal x, jsonMarshalList xs with
    | some t, some ts => some (t :: ts)
    | _, _ => none
/-- The keys of a map or struct with the JSON texts of their values. -/
def jsonMarshalFields : List (GoString × GoValue) → Option (List (GoString × GoString))
  | [] => some []
  | (k, x) :: rest =>
    match jsonMarshal x, jsonMarshalFields rest with
    | some t, some ts => some ((k, t) :: ts)
    | _, _ => none
end

/-! ## `client.go` -/

/-- The constant `CollectionUsers`. -/
def CollectionUsers : GoString := utf8 "users"

/-- The constant `CollectionPages`. -/
def CollectionPages : GoString := utf8 "pages"

/-- The constant `CollectionMeta`. -/
def CollectionMeta : GoString := utf8 "meta"

/-- The constant `CollectionRevisions`. -/
def CollectionRevisions : GoString := utf8 "revisions"

/-- The struct `Options`. -/
structure Options where
  BaseAPIURL : GoString
  Debug : Bool
  Username : GoString
  Password : GoString
  deriving DecidableEq, Repr

/-- The struct `Client`.  Its `httpClient` is described by `CheckRedirect` below. -/
structure Client where
  options : Options
  baseURL : GoString
  deriving DecidableEq, Repr

/-- The outcome of the redirect policy: `nil` (follow) or `http.ErrUseLastResponse`. -/
inductive RedirectVerdict
  | follow
  | useLastResponse
  deriving DecidableEq, Repr

/-- The function literal `CheckRedirect` of `newHTTPClient`: the request about to be made,
as the policy leaves it, and the verdict.  `via` holds the requests made so far. -/
def CheckRedirect (options : Options) (req : Request) (via : List Request) :
    Request × RedirectVerdict :=
  let req :=
    if options.Username ≠ [] ∧ options.Password ≠ [] then
      req.SetBasicAuth options.Username options.Password
    else req
  if via.length ≥ 10 then (req, .useLastResponse) else (req, .follow)

/-- The function `NewClient`. -/
def NewClient (options : Options) : Client :=
  { options := options, baseURL := options.BaseAPIURL }

/-- The statements `if client.options.Username != "" && client.options.Password != "" {
req.SetBasicAuth(...) }` shared by all operations. -/
def Client.authorize (client : Client) (req : Request) : Request :=
  if client.options.Username ≠ [] ∧ client.options.Password ≠ [] then
    req.SetBasicAuth client.options.Username client.options.Password
  else req

/-- The method `url.Values.Encode` on a map given by the caller: the values of each key
in their order, a nil or empty list giving nothing. -/
def encodeValues (m : List (GoString × Option (List GoString))) : GoString :=
  Values.Encode (m.flatMap (fun p => (p.2.getD []).map (fun v => (p.1, v))))

/-- The test `val.Kind() == reflect.Ptr`: the value is a pointer, nil or not. -/
def GoValue.isPtr : GoValue → Bool
  | .nilPtr => true
  | .ptr _ => true
  | _ => false

/-- The function `unpackInterfacePointer`. -/
def unpackInterfacePointer : GoValue → GoValue
  | .nilPtr => .nil
  | .ptr v => v
  | i => i

/-- The method `Client.List`, up to the request given to `httpClient.Do`. -/
def Client.List (client : Client) (url_ : GoString) (params : GoValue) :
    Except GoError Request :=
  match NewRequest (utf8 "GET") url_ none with
  | .error e => .error e
  | .ok req =>
    let req :=
      if params.isNil then req
      else
        let req1 :=
          match params with
          | .mapSS pMap =>
            -- `query` is a local copy that is not written back
            let _query := pMap.foldl (fun q p => Values.Add q p.1 p.2) req.url.Query
            req
          | .urlValues pVal => req.setRawQuery (encodeValues pVal)
          | _ => req.setRawQuery (Values.Encode (addWhole [] (mapParams params)))
        if req1.url.rawQuery = [] then
          req1.setRawQuery (Values.Encode (addFlat req1.url.Query (mapParams params)))
        else req1
    .ok (client.authorize (req.setHeader (utf8 "Accept") (utf8 "application/json")))

/-- The method `Client.Get`, up to the request given to `httpClient.Do`. -/
def Client.Get (client : Client) (url : GoString) (params : GoValue) :
    Except GoError Request :=
  match NewRequest (utf8 "GET") url none with
  | .error e => .error e
  | .ok req =>
    let req :=
      if params.isNil then req
      else req.setRawQuery (Values.Encode (addFlat req.url.Query (mapParams params)))
    .ok (client.authorize (req.setHeader (utf8 "Accept") (utf8 "application/json")))

/-- The method `Client.Create`, up to the request given to `httpClient.Do`. -/
def Client.Create (client : Client) (url : GoString) (content : GoValue) :
    Except GoError Request :=
  let contentVal := unpackInterfacePointer content
  match jsonMarshal contentVal with
  | none => .error .marshal
  | some jsonBody =>
    match NewRequest (utf8 "POST") url (some jsonBody) with
    | .error e => .error e
    | .ok req =>
      let req := req.setHeader (utf8 "Content-Type") (utf8 "application/json")
      let req := req.setHeader (utf8 "Accept") (utf8 "application/json")
      .ok (client.authorize req)

/-- The method `Client.Update`, up to the request given to `httpClient.Do`. -/
def Client.Update (client : Client) (url : GoString) (content : GoValue) :
    Except GoError Request :=
  let contentVal := unpackInterfacePointer content
  match jsonMarshal contentVal with
  | none => .error .marshal
  | some jsonBody =>
    match NewRequest (utf8 "POST") url (some jsonBody) with
    | .error e => .error e
    | .ok req =>
      let req := req.setHeader (utf8 "Content-Type") (utf8 "application/json")
      let req := req.setHeader (utf8 "Accept") (utf8 "application/json")
      let req := req.setHeader (utf8 "X-HTTP-Method-Override") (utf8 "PUT")
      .ok (client.authorize req)

/-- The method `Client.Delete`, up to the request given to `httpClient.Do`.  The first
request, of method `DELETE`, is built and then replaced: `req` is assigned again before
the only call of `httpClient.Do`. -/
def Client.Delete (client : Client) (url_ : GoString) (params : GoValue) :
    Except GoError Request :=
  match NewRequest (utf8 "DELETE") url_ none with
  | .error e => .error e
  | .ok req =>
    let _req :=
      if params.isNil then req
      else req.setRawQuery (Values.Encode (addWhole req.url.Query (mapParams params)))
    let actualURL :=
      if params.isNil then url_
      else
        let urlValues := addFlat [] (mapParams params)
        if urlValues.length > 0 then url_ ++ byteOf 63 :: Values.Encode urlValues else url_
    match urlParse actualURL with
    | .error _ => .error .nilDereference
    | .ok parsedURL =>
      let query := Values.Add parsedURL.Query (utf8 "_method") (utf8 "DELETE")
      let parsedURL := { parsedURL with rawQuery := Values.Encode query }
      let finalURL := parsedURL.String
      match NewRequest (utf8 "GET") finalURL none with
      | .error e => .error e
      | .ok req =>
        let req := req.setHeader (utf8 "X-HTTP-Method-Override") (utf8 "DELETE")
        let req := req.setHeader (utf8 "Accept") (utf8 "application/json")
        .ok (client.authorize req)

/-- The method `Client.PostData`, up to the request given to `httpClient.Do`. -/
def Client.PostData (client : Client) (url : GoString) (content : GoString)
    (contentType filename : GoString) : Except GoError Request :=
  match NewRequest (utf8 "POST") url (some content) with
  | .error e => .error e
  | .ok req =>
    let req := req.setHeader (utf8 "Content-Type") contentType
    let req :=
      if filename ≠ [] then
        req.setHeader (utf8 "Content-Disposition")
          (utf8 "attachment; filename=\"" ++ filename ++ utf8 "\"")
      else req
    let req := req.setHeader (utf8 "Accept") (utf8 "application/json")
    .ok (client.authorize req)

/-! ## The exchange with the server -/

/-- What a client operation returns and leaves in `result`: the response status, the
body, the error, and the value of the variable that `result` points to. -/
structure Outcome (α : Type) where
  status : Option Nat
  body : Option GoString
  err : Option GoError
  result : α

/-- The second half of every client operation: `httpClient.Do`, `ioutil.ReadAll` and
`unmarshallResponse`, which are not part of the embedding, are the function `send`;
when no request could be built the operation returns the error and `result` keeps its
zero value. -/
def exchange {α : Type} (send : Request → Outcome α) (zero : α) :
    Except GoError Request → Outcome α
  | .ok req => send req
  | .error e => { status := none, body := none, err := some e, result := zero }

/-- The text `fmt.Sprintf("%v/%v", url, id)` for a string and an `int`. -/
def entityURL (url : GoString) (id : Int) : GoString := url ++ utf8 "/" ++ fmtInt id

/-! ## `users.go` -/

/-- The struct `UsersCollection`. -/
structure UsersCollection where
  client : Client
  url : GoString
  deriving DecidableEq, Repr

/-- The struct `AvatarURLS`. -/
structure AvatarURLS where
  Size24 : GoString
  Size48 : GoString
  Size96 : GoString
  deriving DecidableEq, Repr

/-- The struct `User`.  The pointer `collection` is `none` when nil. -/
structure User where
  collection : Option UsersCollection
  ID : Int
  AvatarURL : GoString
  AvatarURLs : AvatarURLS
  Capabilities : List (GoString × GoValue)
  Description : GoString
  Email : GoString
  ExtraCapabilities : List (GoString × GoValue)
  FirstName : GoString
  LastName : GoString
  Link : GoString
  Name : GoString
  Nickname : GoString
  RegisteredDate : GoString
  Roles : List GoString
  Slug : GoString
  URL : GoString
  Username : GoString
  Password : GoString

/-- The zero value of `User`, the state of `var user User`. -/
def User.zero : User :=
  { collection := none, ID := 0, AvatarURL := [], AvatarURLs := ⟨[], [], []⟩,
    Capabilities := [], Description := [], Email := [], ExtraCapabilities := [],
    FirstName := [], LastName := [], Link := [], Name := [], Nickname := [],
    RegisteredDate := [], Roles := [], Slug := [], URL := [], Username := [],
    Password := [] }

/-- The struct `MetaCollection`, with the fields that `User.Meta` fills. -/
structure MetaCollection where
  client : Client
  parent : User
  parentType : GoString
  url : GoString

/-- The method `User.setCollection`. -/
def User.setCollection (entity : User) (col : UsersCollection) : User :=
  { entity with collection := some col }

/-- Reading through a pointer: a nil pointer is the run-time panic. -/
def deref {α : Type} : Option α → Except GoError α
  | some a => .ok a
  | none => .error .nilDereference

/-- The method `User.Meta`: `.ok none` is the nil result, an error a run-time panic.  The
call of `_warning` before `return nil` only writes to the log. -/
def User.Meta (entity : User) : Except GoError (Option MetaCollection) :=
  if entity.collection.isNone then
    .ok none
  else do
    let c1 ← deref entity.collection
    let c2 ← deref entity.collection
    .ok (some
      { client := c1.client
        parent := entity
        parentType := CollectionUsers
        url := c2.url ++ utf8 "/" ++ fmtInt entity.ID ++ utf8 "/" ++ CollectionMeta })

/-- A string field tagged `omitempty`: present when not empty. -/
def optField (name : String) (s : GoString) : List (GoString × GoValue) :=
  if s = [] then [] else [(utf8 name, .str s)]

/-- A map field tagged `omitempty`: present when it has an entry. -/
def optMap (name : String) (m : List (GoString × GoValue)) : List (GoString × GoValue) :=
  if m.isEmpty then [] else [(utf8 name, .record m)]

/-- The struct `AvatarURLS` as `json.Marshal` sees it. -/
def AvatarURLS.toValue (a : AvatarURLS) : GoValue :=
  .struct (optField "24" a.Size24 ++ optField "48" a.Size48 ++ optField "96" a.Size96)

/-- The struct `User` as `json.Marshal` sees it: the tagged fields in their order, the
empty ones left out, `collection` never written. -/
def User.toValue (u : User) : GoValue :=
  .struct
    ((if u.ID = 0 then [] else [(utf8 "id", .int u.ID)]) ++
      optField "avatar_url" u.AvatarURL ++
      [(utf8 "avatar_urls", u.AvatarURLs.toValue)] ++
      optMap "capabilities" u.Capabilities ++
      optField "description" u.Description ++
      optField "email" u.Email ++
      optMap "extra_capabilities" u.ExtraCapabilities ++
      optField "first_name" u.FirstName ++
      optField "last_name" u.LastName ++
      optField "link" u.Link ++
      optField "name" u.Name ++
      optField "nickname" u.Nickname ++
      optField "registered_date" u.RegisteredDate ++
      (if u.Roles = [] then [] else [(utf8 "roles", .slice (u.Roles.map GoValue.str))]) ++
      optField "slug" u.Slug ++
      optField "url" u.URL ++
      optField "username" u.Username ++
      optField "password" u.Password)

/-- A `*User` as an interface value: the nil pointer or a pointer to the struct. -/
def userPointer : Option User → GoValue
  | none => .nilPtr
  | some u => .ptr u.toValue

/-- The method `UsersCollection.Me`. -/
def UsersCollection.Me (col : UsersCollection) (send : Request → Outcome User)
    (params : GoValue) : User × Outcome User :=
  let url := col.url ++ utf8 "/me"
  let out := exchange send User.zero (col.client.Get url params)
  (out.result, out)

/-- The method `UsersCollection.List`. -/
def UsersCollection.List (col : UsersCollection) (send : Request → Outcome (List User))
    (params : GoValue) : List User × Outcome (List User) :=
  let out := exchange send [] (col.client.List col.url params)
  (out.result.map (fun u => u.setCollection col), out)

/-- The method `UsersCollection.Create`. -/
def UsersCollection.Create (col : UsersCollection) (send : Request → Outcome User)
    (new : Option User) : User × Outcome User :=
  let out := exchange send User.zero (col.client.Create col.url (userPointer new))
  (out.result.setCollection col, out)

/-- The method `UsersCollection.Get`. -/
def UsersCollection.Get (col : UsersCollection) (send : Request → Outcome User)
    (id : Int) (params : GoValue) : User × Outcome User :=
  let out := exchange send User.zero (col.client.Get (entityURL col.url id) params)
  (out.result.setCollection col, out)

/-- The method `UsersCollection.Update`. -/
def UsersCollection.Update (col : UsersCollection) (send : Request → Outcome User)
    (id : Int) (post : Option User) : User × Outcome User :=
  let out := exchange send User.zero (col.client.Update (entityURL col.url id) (userPointer post))
  (out.result.setCollection col, out)

/-- The method `UsersCollection.Delete`. -/
def UsersCollection.Delete (col : UsersCollection) (send : Request → Outcome User)
    (id : Int) (params : GoValue) : User × Outcome User :=
  let out := exchange send User.zero (col.client.Delete (entityURL col.url id) params)
  (out.result.setCollection col, out)

/-! ## `revisions.go` -/

/-- The struct `RenderedText`. -/
structure RenderedText where
  Rendered : GoString
  Raw : GoString
  deriving DecidableEq, Repr

/-- The struct `Revision`. -/
structure Revision where
  ID : Int
  Author : Int
  Date : GoString
  DateGMT : GoString
  GUID : RenderedText
  Modified : GoString
  ModifiedGMT : GoString
  Parent : Int
  Slug : GoString
  Title : RenderedText
  Content : RenderedText
  Excerpt : RenderedText
  deriving DecidableEq, Repr

/-- The zero value of `Revision`. -/
def Revision.zero : Revision :=
  { ID := 0, Author := 0, Date := [], DateGMT := [], GUID := ⟨[], []⟩, Modified := [],
    ModifiedGMT := [], Parent := 0, Slug := [], Title := ⟨[], []⟩, Content := ⟨[], []⟩,
    Excerpt := ⟨[], []⟩ }

/-- The struct `RevisionsCollection`; `parent` is an `interface{}`. -/
structure RevisionsCollection where
  client : Client
  url : GoString
  parent : GoValue
  parentType : GoString

/-- The method `RevisionsCollection.List`. -/
def RevisionsCollection.List (col : RevisionsCollection)
    (send : Request → Outcome (List Revision)) (params : GoValue) :
    List Revision × Outcome (List Revision) :=
  let out := exchange send [] (col.client.List col.url params)
  (out.result, out)

/-- The method `RevisionsCollection.Get`. -/
def RevisionsCollection.Get (col : RevisionsCollection) (send : Request → Outcome Revision)
    (id : Int) (params : GoValue) : Revision × Outcome Revision :=
  let out := exchange send Revision.zero (col.client.Get (entityURL col.url id) params)
  (out.result, out)

/-- The request of `RevisionsCollection.Delete`: the argument `params` is not used, the
string `"force=true"` is passed to `Client.Delete` in its place. -/
def RevisionsCollection.deleteRequest (col : RevisionsCollection) (id : Int)
    (_params : GoValue) : Except GoError Request :=
  col.client.Delete (entityURL col.url id) (.str (utf8 "force=true"))

/-- The method `RevisionsCollection.Delete`: the result variable is a `bool`. -/
def RevisionsCollection.Delete (col : RevisionsCollection) (send : Request → Outcome Bool)
    (id : Int) (params : GoValue) : Bool × Outcome Bool :=
  let out := exchange send false (col.deleteRequest id params)
  (out.result, out)

/-! ## Pages -/

/-- Modelled from the spec: the pages collection (`pages.go` is not among the sources; the
spec, section 3, gives a collection a client and a URL). -/
structure PagesCollection where
  client : Client
  url : GoString
  deriving DecidableEq, Repr

/-- Modelled from the spec: the page entity (`pages.go` is not among the sources); of its
fields only the back-reference and the id take part in section 4.4. -/
structure Page where
  collection : Option PagesCollection
  ID : Int
  deriving DecidableEq, Repr

/-- Modelled from the spec: the accessor `Page.Revisions` of the missing `pages.go`, after
section 4.4: with the back-reference unset the sub-collection is absent; otherwise it is
a new collection of URL `{parent_collection.url}/{entity.id}/revisions` sharing the client. -/
def Page.Revisions (entity : Page) : Except GoError (Option RevisionsCollection) :=
  match entity.collection with
  | none => .ok none
  | some col =>
    .ok (some
      { client := col.client
        url := col.url ++ utf8 "/" ++ fmtInt entity.ID ++ utf8 "/" ++ CollectionRevisions
        parent := .ptr (.struct [(utf8 "id", .int entity.ID)])
        parentType := CollectionPages })

/-! ## Bytes of an encoded query -/

/-- The bytes that `url.QueryEscape` writes: the unreserved ones, `+` and `%`. -/
def escapeSafe (b : Byte) : Bool := unreserved b || b.val == 43 || b.val == 37

/-- The bytes of an encoded query: those of the escaped texts, `=` and `&`. -/
def querySafe (b : Byte) : Bool := escapeSafe b || b.val == 61 || b.val == 38

/-! ## URLs in plain form -/

/-- The bytes of a host name in plain form: lower-case letters, digits, `-` and `.`. -/
def hostByte (b : Byte) : Bool :=
  (97 ≤ b.val && b.val ≤ 122) || (48 ≤ b.val && b.val ≤ 57) || b.val == 45 || b.val == 46

/-- The decimal digits. -/
def digitOnly (b : Byte) : Bool := 48 ≤ b.val && b.val ≤ 57

/-- The bytes of a path in plain form: the unreserved ones and `/`. -/
def pathByte (b : Byte) : Bool := unreserved b || b.val == 47

/-- The bytes of a URL in plain form: the unreserved ones, `/` and `:`. -/
def plainByte (b : Byte) : Bool := unreserved b || b.val == 47 || b.val == 58

/-- The text after a prefix, when the text starts with it. -/
def dropPrefix : GoString → GoString → Option GoString
  | [], s => some s
  | _ :: _, [] => none
  | a :: p, b :: s => if a = b then dropPrefix p s else none

/-- A path in plain form: empty, or a `/` followed by unreserved bytes and slashes. -/
def plainPath (p : GoString) : Bool :=
  (p.isEmpty || p.head? == some (byteOf 47)) && p.all pathByte

/-- What follows `//` in a URL in plain form: a host name that is not empty, an optional
port (`:` and at least one digit) and a path. -/
def plainAuthority (rest : GoString) : Bool :=
  !(rest.takeWhile hostByte).isEmpty &&
    match rest.dropWhile hostByte with
    | [] => true
    | c :: t =>
      if c = byteOf 58 then
        !(t.takeWhile digitOnly).isEmpty && plainPath (t.dropWhile digitOnly)
      else plainPath (c :: t)

/-- A URL in plain form: the scheme `http` or `https` in lower case, `//`, a host name, an
optional port and a path, with no query and no fragment.  On such a text `url.Parse`
succeeds, changes no byte and `URL.String` gives the text back. -/
def plainURL (u : GoString) : Bool :=
  match dropPrefix (utf8 "https://") u with
  | some rest => plainAuthority rest
  | none =>
    match dropPrefix (utf8 "http://") u with
    | some rest => plainAuthority rest
    | none => false

/-! ## The redirect loop of `http.Client` -/

/-- The loop of `http.Client.Do` against a server that answers with a redirect `n` more
times: before each redirected request the policy is asked, with the requests made so far
as `via`; the requests made are returned.  `next` builds the redirected request. -/
def followRedirects (options : Options) (next : Request → Request) :
    Nat → Request → List Request → List Request
  | 0, _, reqs => reqs
  | n + 1, last, reqs =>
    let c := CheckRedirect options (next last) reqs
    match c.2 with
    | .follow => followRedirects options next n c.1 (reqs ++ [c.1])
    | .useLastResponse => reqs

/-- Number of redirects followed when the server redirects `n` times in a row: the
requests made, less the original one. -/
def redirectsFollowed (options : Options) (next : Request → Request) (n : Nat)
    (first : Request) : Nat :=
  (followRedirects options next n first [first]).length - 1

/-! ## Statements about entities -/

/-- A user is bound to the collection `col`: its back-reference is `col`, and `Meta()`
returns a collection on `col`'s client whose URL is `{col.url}/{ID}/meta`. -/
def boundTo (col : UsersCollection) (u : User) : Prop :=
  u.collection = some col ∧
    ∃ m : MetaCollection, u.Meta = .ok (some m) ∧ m.client = col.client ∧
      m.url = col.url ++ utf8 "/" ++ fmtInt u.ID ++ utf8 "/meta"

/-! # Theorems -/

/-- After `setCollection`, a user is bound to the collection. -/
theorem boundTo_setCollection (col : UsersCollection) (u : User) :
    boundTo col (u.setCollection col) := by
  refine ⟨rfl, ?_⟩
  refine ⟨_, rfl, rfl, ?_⟩
  have h : utf8 "/" ++ CollectionMeta = utf8 "/meta" := by decide
  simp only [User.setCollection, List.append_assoc, h]

/-- C2: every user that `UsersCollection.List`, `Get`, `Create`, `Update` or `Delete`
returns, whatever the exchange with the server produced, has the collection as its
back-reference; `Meta()` on it is present, uses the collection's client and has the URL
`{col.url}/{user.ID}/meta`. -/
theorem users_operations_bind_collection (col : UsersCollection)
    (sendList : Request → Outcome (List User)) (send : Request → Outcome User)
    (params : GoValue) (id : Int) (entity : Option User) :
    (∀ u ∈ (col.List sendList params).1, boundTo col u) ∧
      boundTo col (col.Get send id params).1 ∧
      boundTo col (col.Create send entity).1 ∧
      boundTo col (col.Update send id entity).1 ∧
      boundTo col (col.Delete send id params).1 := by
  refine ⟨?_, boundTo_setCollection _ _, boundTo_setCollection _ _,
    boundTo_setCollection _ _, boundTo_setCollection _ _⟩
  intro u hu
  simp only [UsersCollection.List, List.mem_map] at hu
  obtain ⟨v, _, rfl⟩ := hu
  exact boundTo_setCollection col v

/-- C3: an entity whose back-reference is unset, whatever its other fields, gets the nil
sub-collection from its accessor, and the accessor does not panic: `User.Meta` returns
`.ok none`, and so does `Page.Revisions`. -/
theorem accessor_without_collection_is_nil (u : User) (p : Page) :
    ({ u with collection := none } : User).Meta = .ok none ∧
      ({ p with collection := none } : Page).Revisions = .ok none := by
  exact ⟨rfl, rfl⟩

/-! ## Requests of the operations -/

/-- The credentials do not touch the URL. -/
theorem authorize_url (client : Client) (r : Request) : (client.authorize r).url = r.url := by
  unfold Client.authorize
  split <;> rfl

/-- The credentials do not touch the method. -/
theorem authorize_method (client : Client) (r : Request) :
    (client.authorize r).method = r.method := by
  unfold Client.authorize
  split <;> rfl

/-- The credentials do not touch the header fields kept in `header`. -/
theorem authorize_header (client : Client) (r : Request) :
    (client.authorize r).header = r.header := by
  unfold Client.authorize
  split <;> rfl

/-- The credentials do not touch the body. -/
theorem authorize_body (client : Client) (r : Request) :
    (client.authorize r).body = r.body := by
  unfold Client.authorize
  split <;> rfl

/-- The credentials of an authorized request: the configured pair when both parts are
non-empty, otherwise what the request had. -/
theorem authorize_basicAuth (client : Client) (r : Request) :
    (client.authorize r).basicAuth =
      if client.options.Username ≠ [] ∧ client.options.Password ≠ [] then
        some (client.options.Username, client.options.Password)
      else r.basicAuth := by
  unfold Client.authorize
  split <;> rfl

/-- C1: with the parameters `{"k": ["a", "b"]}`, `Client.List` sends the single pair whose
value is the text of the whole sequence, `k=%5Ba+b%5D` (that is `k=[a b]`), where
`Client.Get` sends the repeated parameter `k=a&k=b`. -/
theorem list_sends_sequence_as_one_pair (client : Client) :
    (∃ r, client.List (utf8 "http://h/wp-json/wp/v2/posts")
        (.record [(utf8 "k", .slice [.str (utf8 "a"), .str (utf8 "b")])]) = .ok r ∧
      r.url.rawQuery = utf8 "k=%5Ba+b%5D" ∧
      r.url.Query = [(utf8 "k", utf8 "[a b]")]) ∧
    (∃ r, client.Get (utf8 "http://h/wp-json/wp/v2/posts")
        (.record [(utf8 "k", .slice [.str (utf8 "a"), .str (utf8 "b")])]) = .ok r ∧
      r.url.rawQuery = utf8 "k=a&k=b" ∧
      r.url.Query = [(utf8 "k", utf8 "a"), (utf8 "k", utf8 "b")]) := by
  refine ⟨⟨_, rfl, ?_, ?_⟩, ⟨_, rfl, ?_, ?_⟩⟩ <;> rw [authorize_url] <;> decide

/-- C10: with the parameters `{"k": 1000000}`, `Client.List` and `Client.Get` both send
`k=1e%2B06` (that is `k=1e+06`), not the decimal digits `k=1000000`: the integer has
become a `float64` on its way through `json.Unmarshal`. -/
theorem integer_parameter_sent_in_exponent_form (client : Client) :
    (∃ r, client.List (utf8 "http://h/wp-json/wp/v2/posts")
        (.record [(utf8 "k", .int 1000000)]) = .ok r ∧
      r.url.rawQuery = utf8 "k=1e%2B06" ∧ r.url.Query = [(utf8 "k", utf8 "1e+06")]) ∧
    (∃ r, client.Get (utf8 "http://h/wp-json/wp/v2/posts")
        (.record [(utf8 "k", .int 1000000)]) = .ok r ∧
      r.url.rawQuery = utf8 "k=1e%2B06" ∧ r.url.Query = [(utf8 "k", utf8 "1e+06")]) ∧
    fmtInt 1000000 = utf8 "1000000" := by
  refine ⟨⟨_, rfl, ?_, ?_⟩, ⟨_, rfl, ?_, ?_⟩, by decide⟩ <;> rw [authorize_url] <;> decide

/-- A request that `http.NewRequest` returns has the method and body given, no header and
no credentials, and the parsed URL. -/
theorem NewRequest_ok {method url : GoString} {body : Option GoString} {r : Request}
    (h : NewRequest method url body = .ok r) :
    r.method = method ∧ r.body = body ∧ r.header = [] ∧ r.basicAuth = none ∧
      urlParse url = .ok r.url := by
  unfold NewRequest at h
  split at h
  · split at h
    · rename_i u hu
      cases h
      exact ⟨rfl, rfl, rfl, rfl, hu⟩
    · cases h
  · cases h

/-- With a valid method, `http.NewRequest` succeeds on every URL that parses. -/
theorem NewRequest_of_parse {method url : GoString} (body : Option GoString) {u : URL}
    (hm : validMethod method = true) (hu : urlParse url = .ok u) :
    NewRequest method url body =
      .ok { method := method, url := u, header := [], basicAuth := none, body := body } := by
  simp [NewRequest, hm, hu]

/-- The request of `Client.Create`, field by field. -/
theorem Create_ok {client : Client} {url : GoString} {content : GoValue} {r : Request}
    (h : client.Create url content = .ok r) :
    ∃ u, urlParse url = .ok u ∧
      r = client.authorize
        { method := utf8 "POST", url := u,
          header := Header.Set (Header.Set [] (utf8 "Content-Type") (utf8 "application/json"))
            (utf8 "Accept") (utf8 "application/json"),
          basicAuth := none, body := jsonMarshal (unpackInterfacePointer content) } := by
  simp only [Client.Create] at h
  split at h
  · cases h
  · rename_i jsonBody hj
    split at h
    · cases h
    · rename_i req hreq
      obtain ⟨h1, h2, h3, h4, h5⟩ := NewRequest_ok hreq
      refine ⟨req.url, h5, ?_⟩
      cases h
      obtain ⟨m, u, hd, ba, b⟩ := req
      simp only at h1 h2 h3 h4
      subst h1 h2 h3 h4
      simp only [Request.setHeader, hj]

/-- The request of `Client.Update`, field by field. -/
theorem Update_ok {client : Client} {url : GoString} {content : GoValue} {r : Request}
    (h : client.Update url content = .ok r) :
    ∃ u, urlParse url = .ok u ∧
      r = client.authorize
        { method := utf8 "POST", url := u,
          header := Header.Set
            (Header.Set (Header.Set [] (utf8 "Content-Type") (utf8 "application/json"))
              (utf8 "Accept") (utf8 "application/json"))
            (utf8 "X-HTTP-Method-Override") (utf8 "PUT"),
          basicAuth := none, body := jsonMarshal (unpackInterfacePointer content) } := by
  simp only [Client.Update] at h
  split at h
  · cases h
  · rename_i jsonBody hj
    split at h
    · cases h
    · rename_i req hreq
      obtain ⟨h1, h2, h3, h4, h5⟩ := NewRequest_ok hreq
      refine ⟨req.url, h5, ?_⟩
      cases h
      obtain ⟨m, u, hd, ba, b⟩ := req
      simp only at h1 h2 h3 h4
      subst h1 h2 h3 h4
      simp only [Request.setHeader, hj]

/-- On a URL that parses and a content that encodes, `Client.Create` builds its request. -/
theorem Create_of_parse (client : Client) {url : GoString} {content : GoValue} {u : URL}
    {body : GoString} (hu : urlParse url = .ok u)
    (hm : jsonMarshal (unpackInterfacePointer content) = some body) :
    ∃ r, client.Create url content = .ok r := by
  have hv : validMethod (utf8 "POST") = true := by decide
  simp only [Client.Create, hm, NewRequest_of_parse (some body) hv hu]
  exact ⟨_, rfl⟩

/-- On a URL that parses and a content that encodes, `Client.Update` builds its request. -/
theorem Update_of_parse (client : Client) {url : GoString} {content : GoValue} {u : URL}
    {body : GoString} (hu : urlParse url = .ok u)
    (hm : jsonMarshal (unpackInterfacePointer content) = some body) :
    ∃ r, client.Update url content = .ok r := by
  have hv : validMethod (utf8 "POST") = true := by decide
  simp only [Client.Update, hm, NewRequest_of_parse (some body) hv hu]
  exact ⟨_, rfl⟩

/-- C5: for every URL and every content whose JSON encoding succeeds, each request that
`Client.Update` sends has method POST, the header `X-HTTP-Method-Override: PUT`, the header
`Content-Type: application/json` and the encoded content as body; `Client.Create` sends,
for the same arguments, the same request without the override header (same method, URL,
credentials and body).  On every URL that parses, `Update` does build its request. -/
theorem update_is_create_with_put_override (client : Client) (url : GoString)
    (content : GoValue) (body : GoString)
    (hm : jsonMarshal (unpackInterfacePointer content) = some body) :
    (∀ r, client.Update url content = .ok r →
      r.method = utf8 "POST" ∧
      Header.Get r.header (utf8 "X-HTTP-Method-Override") = some (utf8 "PUT") ∧
      Header.Get r.header (utf8 "Content-Type") = some (utf8 "application/json") ∧
      r.body = some body ∧
      ∃ c, client.Create url content = .ok c ∧ c.body = r.body ∧ c.method = r.method ∧
        c.url = r.url ∧ c.basicAuth = r.basicAuth ∧
        Header.Get c.header (utf8 "X-HTTP-Method-Override") = none ∧
        r.header = Header.Set c.header (utf8 "X-HTTP-Method-Override") (utf8 "PUT")) ∧
    (∀ u, urlParse url = .ok u → ∃ r, client.Update url content = .ok r) := by
  refine ⟨?_, fun u hu => Update_of_parse client hu hm⟩
  intro r hr
  obtain ⟨u, hu, rfl⟩ := Update_ok hr
  obtain ⟨c, hc⟩ := Create_of_parse client hu hm
  obtain ⟨u2, hu2, hc2⟩ := Create_ok hc
  rw [hu] at hu2
  cases hu2
  refine ⟨by rw [authorize_method], ?_, ?_, by rw [authorize_body, hm], c, hc, ?_⟩
  · simp only [authorize_header]; decide
  · simp only [authorize_header]; decide
  · subst hc2
    simp only [authorize_body, authorize_method, authorize_url, authorize_header,
      authorize_basicAuth, true_and]
    decide

/-- C5, at an instance: a pointer to the record `{"name": "x"}` sent to a users URL. -/
theorem update_is_create_with_put_override_witness :
    (∀ r, (NewClient ⟨utf8 "http://h", false, utf8 "u", utf8 "p"⟩).Update (utf8 "http://h/users/1")
        (.ptr (.record [(utf8 "name", .str (utf8 "x"))])) = .ok r →
      r.method = utf8 "POST" ∧
      Header.Get r.header (utf8 "X-HTTP-Method-Override") = some (utf8 "PUT") ∧
      Header.Get r.header (utf8 "Content-Type") = some (utf8 "application/json") ∧
      r.body = some (utf8 "\x7b\"name\":\"x\"\x7d") ∧
      ∃ c, (NewClient ⟨utf8 "http://h", false, utf8 "u", utf8 "p"⟩).Create (utf8 "http://h/users/1")
          (.ptr (.record [(utf8 "name", .str (utf8 "x"))])) = .ok c ∧
        c.body = r.body ∧ c.method = r.method ∧
        c.url = r.url ∧ c.basicAuth = r.basicAuth ∧
        Header.Get c.header (utf8 "X-HTTP-Method-Override") = none ∧
        r.header = Header.Set c.header (utf8 "X-HTTP-Method-Override") (utf8 "PUT")) ∧
    (∀ u, urlParse (utf8 "http://h/users/1") = .ok u →
      ∃ r, (NewClient ⟨utf8 "http://h", false, utf8 "u", utf8 "p"⟩).Update (utf8 "http://h/users/1")
        (.ptr (.record [(utf8 "name", .str (utf8 "x"))])) = .ok r) :=
  update_is_create_with_put_override _ _ _ _ (by decide)

/-- C6: when the content of `Client.Create` or `Client.Update` is a nil pointer (of any
entity type, a nil `*User` among them) or the untyped nil, the body of every request sent
is the JSON text `null`; it is neither `{}` nor the encoding of the zero-valued entity.
On every URL that parses the request is built. -/
theorem nil_content_body_is_null (client : Client) (url : GoString) (content : GoValue)
    (hc : content = .nil ∨ content = .nilPtr ∨ content = userPointer none) :
    (∀ r, client.Create url content = .ok r ∨ client.Update url content = .ok r →
      r.body = some (utf8 "null") ∧ r.body ≠ some (utf8 "\x7b\x7d") ∧
        r.body ≠ jsonMarshal User.zero.toValue) ∧
    (∀ u, urlParse url = .ok u →
      (∃ r, client.Create url content = .ok r) ∧ ∃ r, client.Update url content = .ok r) := by
  have hm : jsonMarshal (unpackInterfacePointer content) = some (utf8 "null") := by
    rcases hc with rfl | rfl | rfl <;> rfl
  refine ⟨?_, fun u hu => ⟨Create_of_parse client hu hm, Update_of_parse client hu hm⟩⟩
  intro r hr
  have hb : r.body = some (utf8 "null") := by
    rcases hr with hr | hr
    · obtain ⟨u, _, rfl⟩ := Create_ok hr
      rw [authorize_body, hm]
    · obtain ⟨u, _, rfl⟩ := Update_ok hr
      rw [authorize_body, hm]
  rw [hb]
  exact ⟨rfl, by decide, by decide⟩

/-- C6, at an instance: `Create` with a nil `*User`. -/
theorem nil_content_body_is_null_witness :
    (∀ r, (NewClient ⟨utf8 "http://h", false, [], []⟩).Create (utf8 "http://h/users")
          (userPointer none) = .ok r ∨
        (NewClient ⟨utf8 "http://h", false, [], []⟩).Update (utf8 "http://h/users")
          (userPointer none) = .ok r →
      r.body = some (utf8 "null") ∧ r.body ≠ some (utf8 "\x7b\x7d") ∧
        r.body ≠ jsonMarshal User.zero.toValue) ∧
    (∀ u, urlParse (utf8 "http://h/users") = .ok u →
      (∃ r, (NewClient ⟨utf8 "http://h", false, [], []⟩).Create (utf8 "http://h/users")
          (userPointer none) = .ok r) ∧
      ∃ r, (NewClient ⟨utf8 "http://h", false, [], []⟩).Update (utf8 "http://h/users")
          (userPointer none) = .ok r) :=
  nil_content_body_is_null _ _ _ (Or.inr (Or.inr rfl))

/-- The request of `Client.List` is an authorized request that had no credentials. -/
theorem List_ok_auth {client : Client} {url : GoString} {params : GoValue} {r : Request}
    (h : client.List url params = .ok r) :
    ∃ r0, r = client.authorize r0 ∧ r0.basicAuth = none := by
  simp only [Client.List] at h
  split at h
  · cases h
  · rename_i req hreq
    obtain ⟨_, _, _, h4, _⟩ := NewRequest_ok hreq
    cases h
    refine ⟨_, rfl, ?_⟩
    simp only [Request.setHeader]
    split
    · exact h4
    · split <;> split <;> simp [Request.setRawQuery, h4]

/-- The request of `Client.Get` is an authorized request that had no credentials. -/
theorem Get_ok_auth {client : Client} {url : GoString} {params : GoValue} {r : Request}
    (h : client.Get url params = .ok r) :
    ∃ r0, r = client.authorize r0 ∧ r0.basicAuth = none := by
  simp only [Client.Get] at h
  split at h
  · cases h
  · rename_i req hreq
    obtain ⟨_, _, _, h4, _⟩ := NewRequest_ok hreq
    cases h
    refine ⟨_, rfl, ?_⟩
    simp only [Request.setHeader]
    split
    · exact h4
    · exact h4

/-- The request of `Client.Delete` is an authorized request that had no credentials. -/
theorem Delete_ok_auth {client : Client} {url : GoString} {params : GoValue} {r : Request}
    (h : client.Delete url params = .ok r) :
    ∃ r0, r = client.authorize r0 ∧ r0.basicAuth = none := by
  simp only [Client.Delete] at h
  split at h
  · cases h
  · split at h
    · cases h
    · split at h
      · cases h
      · rename_i req hreq
        obtain ⟨_, _, _, h4, _⟩ := NewRequest_ok hreq
        cases h
        exact ⟨_, rfl, h4⟩

/-- The request of `Client.PostData` is an authorized request that had no credentials. -/
theorem PostData_ok_auth {client : Client} {url content contentType filename : GoString}
    {r : Request} (h : client.PostData url content contentType filename = .ok r) :
    ∃ r0, r = client.authorize r0 ∧ r0.basicAuth = none := by
  simp only [Client.PostData] at h
  split at h
  · cases h
  · rename_i req hreq
    obtain ⟨_, _, _, h4, _⟩ := NewRequest_ok hreq
    cases h
    refine ⟨_, rfl, ?_⟩
    simp only [Request.setHeader]
    split <;> exact h4

/-- C8: every request that `List`, `Get`, `Create`, `Update`, `Delete` or `PostData` sends
carries basic-auth credentials if and only if the configured username and password are
both non-empty, and the credentials are then the configured pair.  The redirect policy
follows the same rule on every request it examines: with both parts non-empty it sets the
configured pair, otherwise it leaves the request as it is. -/
theorem credentials_iff_username_and_password (client : Client) (url : GoString)
    (params content : GoValue) (data contentType filename : GoString) (r : Request)
    (h : client.List url params = .ok r ∨ client.Get url params = .ok r ∨
      client.Create url content = .ok r ∨ client.Update url content = .ok r ∨
      client.Delete url params = .ok r ∨
      client.PostData url data contentType filename = .ok r) :
    (r.basicAuth.isSome = true ↔
        client.options.Username ≠ [] ∧ client.options.Password ≠ []) ∧
      (∀ c, r.basicAuth = some c → c = (client.options.Username, client.options.Password)) ∧
      ∀ (req : Request) (via : List Request),
        ((client.options.Username ≠ [] ∧ client.options.Password ≠ []) →
          (CheckRedirect client.options req via).1.basicAuth =
            some (client.options.Username, client.options.Password)) ∧
        (¬ (client.options.Username ≠ [] ∧ client.options.Password ≠ []) →
          (CheckRedirect client.options req via).1 = req) := by
  have h0 : ∃ r0, r = client.authorize r0 ∧ r0.basicAuth = none := by
    rcases h with h | h | h | h | h | h
    · exact List_ok_auth h
    · exact Get_ok_auth h
    · obtain ⟨u, _, rfl⟩ := Create_ok h
      exact ⟨_, rfl, rfl⟩
    · obtain ⟨u, _, rfl⟩ := Update_ok h
      exact ⟨_, rfl, rfl⟩
    · exact Delete_ok_auth h
    · exact PostData_ok_auth h
  obtain ⟨r0, rfl, hr0⟩ := h0
  rw [authorize_basicAuth, hr0]
  refine ⟨?_, ?_, ?_⟩
  · split <;> simp_all
  · intro c hc
    split at hc
    · cases hc; rfl
    · cases hc
  · intro req via
    constructor
    · intro hb
      unfold CheckRedirect
      simp only [hb, and_self, if_true]
      split <;> rfl
    · intro hb
      unfold CheckRedirect
      simp only [hb, if_false]
      split <;> rfl

/-- C8, at an instance: `List` with the credentials `u`, `p`. -/
theorem credentials_iff_username_and_password_witness :
    ∃ r, (NewClient ⟨utf8 "http://h", false, utf8 "u", utf8 "p"⟩).List (utf8 "http://h/users")
        .nil = .ok r ∧
      ((r.basicAuth.isSome = true ↔ utf8 "u" ≠ [] ∧ utf8 "p" ≠ []) ∧
        (∀ c, r.basicAuth = some c → c = (utf8 "u", utf8 "p")) ∧
        ∀ (req : Request) (via : List Request),
          ((utf8 "u" ≠ [] ∧ utf8 "p" ≠ []) →
            (CheckRedirect ⟨utf8 "http://h", false, utf8 "u", utf8 "p"⟩ req via).1.basicAuth =
              some (utf8 "u", utf8 "p")) ∧
          (¬ (utf8 "u" ≠ [] ∧ utf8 "p" ≠ []) →
            (CheckRedirect ⟨utf8 "http://h", false, utf8 "u", utf8 "p"⟩ req via).1 = req)) :=
  ⟨_, rfl, credentials_iff_username_and_password
    (NewClient ⟨utf8 "http://h", false, utf8 "u", utf8 "p"⟩) (utf8 "http://h/users") .nil .nil
    [] [] [] _ (Or.inl rfl)⟩

/-- The verdict of the redirect policy depends on the number of requests made only. -/
theorem CheckRedirect_verdict (options : Options) (req : Request) (via : List Request) :
    (CheckRedirect options req via).2 =
      if via.length ≥ 10 then .useLastResponse else .follow := by
  by_cases h : via.length ≥ 10 <;> simp [CheckRedirect, h]

/-- The requests made by the redirect loop: it stops at ten requests. -/
theorem followRedirects_length (options : Options) (next : Request → Request) (n : Nat) :
    ∀ (last : Request) (reqs : List Request), reqs.length ≤ 10 →
      (followRedirects options next n last reqs).length = min (reqs.length + n) 10 := by
  induction n with
  | zero => intro last reqs h; simp [followRedirects]; omega
  | succ n ih =>
    intro last reqs h
    unfold followRedirects
    simp only [CheckRedirect_verdict]
    by_cases h10 : reqs.length ≥ 10
    · simp only [h10, if_true]
      omega
    · simp only [h10, if_false]
      rw [ih _ _ (by simp; omega)]
      simp
      omega

/-- C9: the redirect policy refuses the tenth redirect.  With `via` the ten requests
already made (the original one and nine redirected ones) the verdict is the
use-last-response signal; a redirect is followed exactly when fewer than ten requests
have been made, so of a chain of `n` redirects the first `min n 9` are followed. -/
theorem tenth_redirect_is_not_followed (options : Options) (req : Request)
    (next : Request → Request) :
    (CheckRedirect options req (List.replicate 10 req)).2 = .useLastResponse ∧
      (∀ via : List Request, (CheckRedirect options req via).2 = .follow ↔ via.length < 10) ∧
      (∀ n, redirectsFollowed options next n req = min n 9) ∧
      redirectsFollowed options next 10 req = 9 := by
  have hall : ∀ n, redirectsFollowed options next n req = min n 9 := by
    intro n
    unfold redirectsFollowed
    rw [followRedirects_length options next n req [req] (by simp)]
    simp
    omega
  refine ⟨?_, ?_, hall, by rw [hall]; rfl⟩
  · rw [CheckRedirect_verdict]; simp
  · intro via
    rw [CheckRedirect_verdict]
    by_cases h : via.length ≥ 10
    · simp only [h, if_true]
      constructor
      · intro h'; cases h'
      · intro h'; omega
    · simp only [h, if_false, true_iff]
      omega

/-! ## `ParseQuery` reads back what `Encode` wrote -/

set_option maxRecDepth 100000 in
/-- The escape of a byte, read back. -/
theorem unescape_escapeByte_facts :
    ∀ b : Byte,
      (unreserved b = true → b.val ≠ 37 ∧ b.val ≠ 43) ∧
      unhex (hexDigit (b.val / 16)) = some (b.val / 16) ∧
      unhex (hexDigit (b.val % 16)) = some (b.val % 16) ∧
      byteOf (b.val / 16 * 16 + b.val % 16) = b := by
  decide

set_option maxRecDepth 100000 in
/-- Hexadecimal digits belong to the escaped alphabet. -/
theorem hexDigit_safe : ∀ b : Byte,
    escapeSafe (hexDigit (b.val / 16)) = true ∧ escapeSafe (hexDigit (b.val % 16)) = true := by
  decide

/-- The escape of a byte holds bytes of the escaped alphabet only. -/
theorem escapeByte_safe (b : Byte) : ∀ c ∈ escapeByte b, escapeSafe c = true := by
  intro c hc
  unfold escapeByte at hc
  by_cases hu : unreserved b = true
  · simp only [hu, if_true, List.mem_singleton] at hc
    subst hc
    simp [escapeSafe, hu]
  · simp only [hu, Bool.false_eq_true, if_false] at hc
    by_cases hs : b.val = 32
    · simp only [hs, if_true, List.mem_singleton] at hc
      subst hc
      decide
    · simp only [hs, if_false, List.mem_cons, List.mem_singleton, List.mem_nil_iff,
        or_false] at hc
      rcases hc with rfl | rfl | rfl
      · decide
      · exact (hexDigit_safe b).1
      · exact (hexDigit_safe b).2

/-- Unescaping the escape of a byte, followed by more text, gives the byte back. -/
theorem QueryUnescape_escapeByte (b : Byte) (t : GoString) :
    QueryUnescape (escapeByte b ++ t) = (QueryUnescape t).map (fun r => b :: r) := by
  obtain ⟨h1, h2, h3, h4⟩ := unescape_escapeByte_facts b
  unfold escapeByte
  by_cases hu : unreserved b = true
  · obtain ⟨ha, hb⟩ := h1 hu
    simp only [hu, if_true, List.singleton_append]
    rw [QueryUnescape.eq_def]
    simp only [ha, hb, if_false]
  · simp only [hu, Bool.false_eq_true, if_false]
    by_cases hs : b.val = 32
    · simp only [hs, if_true, List.singleton_append]
      rw [QueryUnescape.eq_def]
      have e1 : (byteOf 43).val ≠ 37 := by decide
      have e2 : (byteOf 43).val = 43 := by decide
      simp only [e1, e2, if_false, if_true]
      have e3 : byteOf 32 = b := Fin.ext (by rw [hs]; rfl)
      rw [e3, if_neg (by decide)]
    · simp only [hs, if_false, List.cons_append, List.nil_append]
      rw [QueryUnescape.eq_def]
      have e1 : (byteOf 37).val = 37 := by decide
      simp only [e1, if_true, h2, h3, h4]

/-- Unescaping an escaped text, followed by more text, gives the text back. -/
theorem QueryUnescape_QueryEscape_append (s t : GoString) :
    QueryUnescape (QueryEscape s ++ t) = (QueryUnescape t).map (fun r => s ++ r) := by
  induction s with
  | nil => simp [QueryEscape]
  | cons b s ih =>
    have : QueryEscape (b :: s) = escapeByte b ++ QueryEscape s := by
      simp [QueryEscape]
    rw [this, List.append_assoc, QueryUnescape_escapeByte, ih]
    cases QueryUnescape t <;> simp

/-- The round trip of `url.QueryEscape` and `url.QueryUnescape`. -/
theorem QueryUnescape_QueryEscape (s : GoString) : QueryUnescape (QueryEscape s) = some s := by
  have h := QueryUnescape_QueryEscape_append s []
  simpa [QueryUnescape] using h

/-- An escaped text holds bytes of the escaped alphabet only. -/
theorem QueryEscape_safe (s : GoString) : ∀ c ∈ QueryEscape s, escapeSafe c = true := by
  intro c hc
  simp only [QueryEscape, List.mem_flatMap] at hc
  obtain ⟨b, _, hb⟩ := hc
  exact escapeByte_safe b c hb

set_option maxRecDepth 100000 in
/-- The escaped alphabet holds no separator of a query or of a URL and no control byte. -/
theorem escapeSafe_facts : ∀ c : Byte, escapeSafe c = true →
    c ≠ byteOf 38 ∧ c ≠ byteOf 61 ∧ c ≠ byteOf 59 ∧ c ≠ byteOf 35 ∧ c ≠ byteOf 63 ∧
      isCTL c = false := by
  decide

set_option maxRecDepth 100000 in
/-- The bytes of an encoded query are no separator of a URL and no control byte. -/
theorem querySafe_facts : ∀ c : Byte, querySafe c = true →
    c ≠ byteOf 59 ∧ c ≠ byteOf 35 ∧ c ≠ byteOf 63 ∧ isCTL c = false := by
  decide

/-- Cutting at a separator that the first part does not hold. -/
theorem cut_append (sep : Byte) (x rest : GoString) (h : sep ∉ x) :
    cut sep (x ++ sep :: rest) = (x, rest, true) := by
  induction x with
  | nil => simp [cut]
  | cons b x ih =>
    have hb : b ≠ sep := fun e => h (by simp [e])
    have hx : sep ∉ x := fun e => h (by simp [e])
    simp [cut, hb, ih hx]

/-- Cutting a text that does not hold the separator. -/
theorem cut_absent (sep : Byte) (x : GoString) (h : sep ∉ x) : cut sep x = (x, [], false) := by
  induction x with
  | nil => simp [cut]
  | cons b x ih =>
    have hb : b ≠ sep := fun e => h (by simp [e])
    have hx : sep ∉ x := fun e => h (by simp [e])
    simp [cut, hb, ih hx]

/-- An item `key=value` holds bytes of an encoded query only. -/
theorem encodePair_safe (p : GoString × GoString) : ∀ c ∈ encodePair p, querySafe c = true := by
  intro c hc
  simp only [encodePair, List.mem_append, List.mem_cons] at hc
  rcases hc with hc | rfl | hc
  · simp [querySafe, QueryEscape_safe _ c hc]
  · decide
  · simp [querySafe, QueryEscape_safe _ c hc]

/-- An item `key=value` is not empty. -/
theorem encodePair_ne_nil (p : GoString × GoString) : encodePair p ≠ [] := by
  simp [encodePair]

/-- An item `key=value` holds no `&`. -/
theorem encodePair_no_amp (p : GoString × GoString) : byteOf 38 ∉ encodePair p := by
  intro hc
  simp only [encodePair, List.mem_append, List.mem_cons] at hc
  rcases hc with hc | hc | hc
  · exact (escapeSafe_facts _ (QueryEscape_safe _ _ hc)).1 rfl
  · exact absurd hc (by decide)
  · exact (escapeSafe_facts _ (QueryEscape_safe _ _ hc)).1 rfl

/-- Parsing an item that `Encode` wrote gives the pair back. -/
theorem parseItem_encodePair (p : GoString × GoString) : parseItem (encodePair p) = some p := by
  have hsemi : byteOf 59 ∉ encodePair p := fun hc =>
    (querySafe_facts _ (encodePair_safe p _ hc)).1 rfl
  have heq : byteOf 61 ∉ QueryEscape p.1 := fun hc =>
    (escapeSafe_facts _ (QueryEscape_safe _ _ hc)).2.1 rfl
  unfold parseItem
  rw [if_neg hsemi, if_neg (encodePair_ne_nil p)]
  simp only [encodePair, cut_append _ _ _ heq, QueryUnescape_QueryEscape]

/-- Splitting at `&` what was joined with `&`. -/
theorem splitAmp_joinAmp (items : List GoString) :
    ∀ fuel, (∀ x ∈ items, x ≠ [] ∧ byteOf 38 ∉ x) → items.length ≤ fuel →
      splitAmp fuel (joinAmp items) = items := by
  induction items with
  | nil => intro fuel _ _; cases fuel <;> simp [splitAmp, joinAmp]
  | cons x rest ih =>
    intro fuel h hl
    obtain ⟨hx1, hx2⟩ := h x (by simp)
    have hrest : ∀ y ∈ rest, y ≠ [] ∧ byteOf 38 ∉ y := fun y hy => h y (by simp [hy])
    cases fuel with
    | zero => simp at hl
    | succ fuel =>
      have hl2 : rest.length ≤ fuel := by simpa using hl
      cases rest with
      | nil =>
        simp only [joinAmp, splitAmp, hx1, if_false, cut_absent _ _ hx2]
        cases fuel <;> simp [splitAmp]
      | cons y rest2 =>
        have hne : x ++ byteOf 38 :: joinAmp (y :: rest2) ≠ [] := by simp
        simp only [joinAmp, splitAmp, hne, if_false, cut_append _ _ _ hx2]
        rw [ih fuel hrest hl2]

/-- Joined non-empty items are at least as many bytes as items. -/
theorem joinAmp_length (items : List GoString) (h : ∀ x ∈ items, x ≠ []) :
    items.length ≤ (joinAmp items).length := by
  induction items with
  | nil => simp
  | cons x rest ih =>
    have hx : 1 ≤ x.length := by
      have := h x (by simp)
      cases x with
      | nil => exact absurd rfl this
      | cons _ _ => simp
    have hrest := ih (fun y hy => h y (by simp [hy]))
    cases rest with
    | nil => simpa [joinAmp] using hx
    | cons y rest2 =>
      simp only [joinAmp, List.length_append, List.length_cons] at hrest ⊢
      omega

/-- Parsing the items of a list of pairs gives the pairs back. -/
theorem filterMap_parseItem_encodePair (l : Values) :
    (l.map encodePair).filterMap parseItem = l := by
  induction l with
  | nil => rfl
  | cons p l ih => simp [List.filterMap_cons, parseItem_encodePair, ih]

/-- The query that `Encode` writes, parsed: the pairs in the order of `Encode`. -/
theorem ParseQuery_joinAmp (l : Values) : ParseQuery (joinAmp (l.map encodePair)) = l := by
  have hitems : ∀ x ∈ l.map encodePair, x ≠ [] ∧ byteOf 38 ∉ x := by
    intro x hx
    simp only [List.mem_map] at hx
    obtain ⟨p, _, rfl⟩ := hx
    exact ⟨encodePair_ne_nil p, encodePair_no_amp p⟩
  have hlen := joinAmp_length (l.map encodePair) (fun x hx => (hitems x hx).1)
  unfold ParseQuery
  rw [splitAmp_joinAmp _ _ hitems (by omega), filterMap_parseItem_encodePair]

/-- The round trip of `Values.Encode` and `url.ParseQuery`: the pairs come back, sorted by
key, the values of each key in their order. -/
theorem ParseQuery_Encode (v : Values) : ParseQuery (Values.Encode v) = sortPairs v :=
  ParseQuery_joinAmp (sortPairs v)

/-! ## `url.Parse` on the URLs that `Client.Delete` builds -/

/-- A URL without query, fragment and control bytes parses to its head. -/
theorem urlParse_plain (url : GoString) (hq : byteOf 63 ∉ url) (hf : byteOf 35 ∉ url)
    (hc : url.any isCTL = false) :
    urlParse url = .ok { head := url, forceQuery := false, rawQuery := [], fragment := [] } := by
  have hlast : url.getLast? ≠ some (byteOf 63) := by
    intro h
    exact hq (List.mem_of_getLast?_eq_some h)
  simp only [urlParse, cut_absent _ _ hf, cut_absent _ _ hq, hc, Bool.false_eq_true, if_false,
    hlast, false_and]

/-- An encoded query appended to such a URL after `?` is parsed as its `RawQuery`. -/
theorem urlParse_query (url q : GoString) (hq : byteOf 63 ∉ url) (hf : byteOf 35 ∉ url)
    (hc : url.any isCTL = false) (hne : q ≠ []) (hs : ∀ c ∈ q, querySafe c = true) :
    urlParse (url ++ byteOf 63 :: q) =
      .ok { head := url, forceQuery := false, rawQuery := q, fragment := [] } := by
  have hf2 : byteOf 35 ∉ url ++ byteOf 63 :: q := by
    intro h
    simp only [List.mem_append, List.mem_cons] at h
    rcases h with h | h | h
    · exact hf h
    · exact absurd h (by decide)
    · exact (querySafe_facts _ (hs _ h)).2.1 rfl
  have hc2 : (url ++ byteOf 63 :: q).any isCTL = false := by
    rw [List.any_append, hc, Bool.false_or, List.any_cons]
    have : q.any isCTL = false := by
      rw [List.any_eq_false]
      intro c hcq
      simp [(querySafe_facts _ (hs _ hcq)).2.2.2]
    rw [this]
    decide
  have hlast : (url ++ byteOf 63 :: q).getLast? ≠ some (byteOf 63) := by
    intro h
    have h2 : (url ++ byteOf 63 :: q).getLast? = q.getLast? := by
      rw [List.getLast?_append, List.getLast?_cons]
      cases hq2 : q.getLast? with
      | none => exact absurd (List.getLast?_eq_none_iff.mp hq2) hne
      | some c => simp
    rw [h2] at h
    exact (querySafe_facts _ (hs _ (List.mem_of_getLast?_eq_some h))).2.2.1 rfl
  simp only [urlParse, cut_absent _ _ hf2, cut_append _ _ _ hq, hc2, Bool.false_eq_true,
    if_false, hlast, false_and]

/-- Joined items of an encoded query hold bytes of an encoded query only. -/
theorem joinAmp_safe (items : List GoString) (h : ∀ x ∈ items, ∀ c ∈ x, querySafe c = true) :
    ∀ c ∈ joinAmp items, querySafe c = true := by
  induction items with
  | nil => intro c hc; simp [joinAmp] at hc
  | cons x rest ih =>
    have hrest := ih (fun y hy => h y (by simp [hy]))
    cases rest with
    | nil => simpa [joinAmp] using h x (by simp)
    | cons y rest2 =>
      intro c hc
      simp only [joinAmp, List.mem_append, List.mem_cons] at hc
      rcases hc with hc | rfl | hc
      · exact h x (by simp) c hc
      · decide
      · exact hrest c hc

/-- An encoded query holds bytes of an encoded query only. -/
theorem Encode_safe (v : Values) : ∀ c ∈ Values.Encode v, querySafe c = true := by
  apply joinAmp_safe
  intro x hx
  simp only [List.mem_map] at hx
  obtain ⟨p, _, rfl⟩ := hx
  exact encodePair_safe p

/-- The encoding of at least one pair is not empty. -/
theorem Encode_ne_nil (v : Values) (h : v ≠ []) : Values.Encode v ≠ [] := by
  intro he
  have h1 := ParseQuery_Encode v
  rw [he] at h1
  have h2 : sortPairs v = [] := by rw [← h1]; rfl
  have h3 : (sortPairs v).length = v.length := List.length_insertionSort _ _
  rw [h2] at h3
  exact h (List.length_eq_zero.mp h3.symm)

/-- The pairs that `Client.Delete` is given by the caller, flattened: one pair per element
of a sequence, one pair per other value. -/
theorem flatten_nil_params (params : GoValue) (h : params.isNil = true) :
    addFlat [] (mapParams params) = [] := by
  cases params <;> first | rfl | cases h

/-- The request of `Client.Delete` on a URL without query, fragment and control bytes: a
`GET` of the same URL whose query is the encoding of the caller's flattened pairs, in the
order of `Encode`, followed by `_method=DELETE`. -/
theorem Delete_plain (client : Client) (url : GoString) (params : GoValue)
    (hq : byteOf 63 ∉ url) (hf : byteOf 35 ∉ url) (hc : url.any isCTL = false) :
    client.Delete url params = .ok (client.authorize
      { method := utf8 "GET",
        url := { head := url, forceQuery := false,
                 rawQuery := Values.Encode
                   (sortPairs (addFlat [] (mapParams params)) ++ [(utf8 "_method", utf8 "DELETE")]),
                 fragment := [] },
        header := Header.Set (Header.Set [] (utf8 "X-HTTP-Method-Override") (utf8 "DELETE"))
          (utf8 "Accept") (utf8 "application/json"),
        basicAuth := none, body := none }) := by
  have hv1 : validMethod (utf8 "DELETE") = true := by decide
  have hv2 : validMethod (utf8 "GET") = true := by decide
  have hfinal : ∀ F : Values,
      urlParse (url ++ byteOf 63 :: Values.Encode (F ++ [(utf8 "_method", utf8 "DELETE")])) =
        .ok { head := url, forceQuery := false,
              rawQuery := Values.Encode (F ++ [(utf8 "_method", utf8 "DELETE")]),
              fragment := [] } := fun F =>
    urlParse_query url _ hq hf hc (Encode_ne_nil _ (by simp)) (Encode_safe _)
  have hparsed : ∃ parsed, urlParse
      (if params.isNil then url
       else if (addFlat [] (mapParams params)).length > 0 then
         url ++ byteOf 63 :: Values.Encode (addFlat [] (mapParams params))
       else url) = .ok parsed ∧ parsed.head = url ∧ parsed.forceQuery = false ∧
        parsed.fragment = [] ∧ parsed.Query = sortPairs (addFlat [] (mapParams params)) := by
    by_cases hn : params.isNil = true
    · refine ⟨_, by rw [if_pos hn]; exact urlParse_plain url hq hf hc, rfl, rfl, rfl, ?_⟩
      rw [flatten_nil_params params hn]
      rfl
    · rw [if_neg hn]
      by_cases hl : (addFlat [] (mapParams params)).length > 0
      · rw [if_pos hl]
        have hne : addFlat [] (mapParams params) ≠ [] := by
          intro h; rw [h] at hl; simp at hl
        refine ⟨_, urlParse_query url _ hq hf hc (Encode_ne_nil _ hne) (Encode_safe _),
          rfl, rfl, rfl, ?_⟩
        exact ParseQuery_Encode _
      · rw [if_neg hl]
        have he : addFlat [] (mapParams params) = [] := by
          cases h : addFlat [] (mapParams params) with
          | nil => rfl
          | cons a l => rw [h] at hl; simp at hl
        refine ⟨_, urlParse_plain url hq hf hc, rfl, rfl, rfl, ?_⟩
        rw [he]
        rfl
  obtain ⟨parsed, hp, h1, h2, h3, h4⟩ := hparsed
  simp only [Client.Delete, NewRequest_of_parse none hv1 (urlParse_plain url hq hf hc), hp]
  have hstr : ∀ q : GoString, q ≠ [] →
      URL.String { parsed with rawQuery := q } = url ++ byteOf 63 :: q := by
    intro q hqne
    simp [URL.String, h1, h2, h3, hqne]
  have hadd : Values.Add parsed.Query (utf8 "_method") (utf8 "DELETE") =
      sortPairs (addFlat [] (mapParams params)) ++ [(utf8 "_method", utf8 "DELETE")] := by
    rw [h4]; rfl
  rw [hadd, hstr _ (Encode_ne_nil _ (by simp)), NewRequest_of_parse none hv2 (hfinal _)]
  rfl

/-- The bytewise order is total. -/
theorem bytesLE_total : ∀ a b : GoString, bytesLE a b = true ∨ bytesLE b a = true
  | [], _ => Or.inl rfl
  | _ :: _, [] => Or.inr rfl
  | x :: xs, y :: ys => by
    simp only [bytesLE]
    by_cases h1 : x.val < y.val
    · simp [h1]
    · by_cases h2 : y.val < x.val
      · simp [h2]
      · simp only [h1, h2, if_false]
        exact bytesLE_total xs ys

/-- The bytewise order is transitive. -/
theorem bytesLE_trans : ∀ a b c : GoString,
    bytesLE a b = true → bytesLE b c = true → bytesLE a c = true
  | [], _, _, _, _ => rfl
  | _ :: _, [], _, h, _ => by simp [bytesLE] at h
  | _ :: _, _ :: _, [], _, h => by simp [bytesLE] at h
  | x :: xs, y :: ys, z :: zs, h1, h2 => by
    simp only [bytesLE] at h1 h2 ⊢
    by_cases hxy : x.val < y.val
    · by_cases hyz : y.val < z.val
      · have : x.val < z.val := by omega
        simp [this]
      · by_cases hzy : z.val < y.val
        · simp [hyz, hzy] at h2
        · have : x.val < z.val := by omega
          simp [this]
    · by_cases hyx : y.val < x.val
      · simp [hxy, hyx] at h1
      · simp only [hxy, hyx, if_false] at h1
        by_cases hyz : y.val < z.val
        · have : x.val < z.val := by omega
          simp [this]
        · by_cases hzy : z.val < y.val
          · simp [hyz, hzy] at h2
          · simp only [hyz, hzy, if_false] at h2
            have e1 : ¬ x.val < z.val := by omega
            have e2 : ¬ z.val < x.val := by omega
            simp only [e1, e2, if_false]
            exact bytesLE_trans xs ys zs h1 h2

/-- The pairs that `Encode` visits are in the order of their keys. -/
theorem sortPairs_sorted (v : Values) : List.Sorted keyLE (sortPairs v) :=
  @List.sorted_insertionSort _ keyLE _ ⟨fun a b => bytesLE_total a.1 b.1⟩
    ⟨fun a b c => bytesLE_trans a.1 b.1 c.1⟩ v

/-- Pairs in the order of `Encode` are encoded in that order. -/
theorem sortPairs_idem (v : Values) : sortPairs (sortPairs v) = sortPairs v :=
  List.Sorted.insertionSort_eq (sortPairs_sorted v)

/-- A URL with a control byte and without fragment is refused by `url.Parse`. -/
theorem Delete_ok_noCTL {client : Client} {url : GoString} {params : GoValue} {r : Request}
    (hf : byteOf 35 ∉ url) (h : client.Delete url params = .ok r) : url.any isCTL = false := by
  cases hc : url.any isCTL with
  | false => rfl
  | true =>
    have hp : urlParse url = .error .invalidURL := by
      simp only [urlParse, cut_absent _ _ hf, hc, if_true]
    have hv1 : validMethod (utf8 "DELETE") = true := by decide
    simp [Client.Delete, NewRequest, hv1, hp] at h

/-- C4: on a target URL that has a fragment and no query string, `Client.Delete` loses the
parameters of the caller.  With the URL `http://h/posts/7#top` and the parameters
`{"k": "v"}` the request sent is `GET http://h/posts/7?_method=DELETE#top?k=v`, with the
override header: the pair `k=v` was appended to the text, after the fragment, and the
query string holds `_method=DELETE` alone.  `Client.Get` puts the pair of the same call
into the query string, and so does `Client.Delete` on the URL without the fragment. -/
theorem delete_drops_params_after_fragment (client : Client) :
    (∃ r, client.Delete (utf8 "http://h/posts/7#top")
        (.record [(utf8 "k", .str (utf8 "v"))]) = .ok r ∧
      r.method = utf8 "GET" ∧
      Header.Get r.header (utf8 "X-HTTP-Method-Override") = some (utf8 "DELETE") ∧
      r.url.rawQuery = utf8 "_method=DELETE" ∧
      r.url.Query = [(utf8 "_method", utf8 "DELETE")] ∧
      (utf8 "k", utf8 "v") ∉ r.url.Query ∧
      r.url.fragment = utf8 "top?k=v" ∧
      r.url.String = utf8 "http://h/posts/7?_method=DELETE#top?k=v") ∧
    (∃ g, client.Get (utf8 "http://h/posts/7#top")
        (.record [(utf8 "k", .str (utf8 "v"))]) = .ok g ∧
      g.url.Query = [(utf8 "k", utf8 "v")] ∧
      g.url.String = utf8 "http://h/posts/7?k=v#top") ∧
    (∃ r, client.Delete (utf8 "http://h/posts/7")
        (.record [(utf8 "k", .str (utf8 "v"))]) = .ok r ∧
      r.url.Query = [(utf8 "_method", utf8 "DELETE"), (utf8 "k", utf8 "v")] ∧
      r.url.String = utf8 "http://h/posts/7?_method=DELETE&k=v") := by
  refine ⟨⟨_, rfl, ?_, ?_, ?_, ?_, ?_, ?_, ?_⟩, ⟨_, rfl, ?_, ?_⟩, ⟨_, rfl, ?_, ?_⟩⟩
  · exact (authorize_method _ _).trans rfl
  · simp only [authorize_header]; decide
  · rw [authorize_url]; decide
  · rw [authorize_url]; decide
  · rw [authorize_url]; decide
  · rw [authorize_url]; decide
  · rw [authorize_url]; decide
  · rw [authorize_url]; decide
  · rw [authorize_url]; decide
  · rw [authorize_url]; decide
  · rw [authorize_url]; decide

/-! ## The request of `RevisionsCollection.Delete` -/

/-- The digits of a natural number are below ten. -/
theorem natDigitsAux_lt (fuel : Nat) : ∀ (n : Nat) (acc : List Nat), (∀ d ∈ acc, d < 10) →
    ∀ d ∈ natDigitsAux fuel n acc, d < 10 := by
  induction fuel with
  | zero => intro n acc h d hd; exact h d hd
  | succ fuel ih =>
    intro n acc h d hd
    unfold natDigitsAux at hd
    split at hd
    · rename_i hn
      rcases List.mem_cons.mp hd with rfl | hd
      · exact hn
      · exact h d hd
    · refine ih (n / 10) (n % 10 :: acc) ?_ d hd
      intro e he
      rcases List.mem_cons.mp he with rfl | he
      · exact Nat.mod_lt _ (by decide)
      · exact h e he

/-- The decimal text of an integer holds digits and the minus sign, which are unreserved. -/
theorem fmtInt_unreserved (n : Int) : ∀ c ∈ fmtInt n, unreserved c = true := by
  have hdig : ∀ d, d < 10 → unreserved (digitByte d) = true := by decide
  have hnat : ∀ m : Nat, ∀ c ∈ fmtNat m, unreserved c = true := by
    intro m c hc
    simp only [fmtNat, List.mem_map] at hc
    obtain ⟨d, hd, rfl⟩ := hc
    exact hdig d (natDigitsAux_lt _ _ [] (by simp) d hd)
  intro c hc
  unfold fmtInt at hc
  split at hc
  · rcases List.mem_cons.mp hc with rfl | hc
    · decide
    · exact hnat _ c hc
  · exact hnat _ c hc

/-- The URL of an entity has no query, fragment or control byte when the collection's has
none. -/
theorem entityURL_plain (url : GoString) (id : Int) (hq : byteOf 63 ∉ url)
    (hf : byteOf 35 ∉ url) :
    byteOf 63 ∉ entityURL url id ∧ byteOf 35 ∉ entityURL url id ∧
      ((entityURL url id).any isCTL = url.any isCTL) := by
  have hsafe : ∀ c ∈ fmtInt id, escapeSafe c = true := fun c hc => by
    simp [escapeSafe, fmtInt_unreserved id c hc]
  have hslash : utf8 "/" = [byteOf 47] := by decide
  refine ⟨?_, ?_, ?_⟩
  · intro h
    simp only [entityURL, hslash, List.mem_append, List.mem_singleton] at h
    rcases h with (h | h) | h
    · exact hq h
    · exact absurd h (by decide)
    · exact (escapeSafe_facts _ (hsafe _ h)).2.2.2.2.1 rfl
  · intro h
    simp only [entityURL, hslash, List.mem_append, List.mem_singleton] at h
    rcases h with (h | h) | h
    · exact hf h
    · exact absurd h (by decide)
    · exact (escapeSafe_facts _ (hsafe _ h)).2.2.2.1 rfl
  · have h1 : (fmtInt id).any isCTL = false := by
      rw [List.any_eq_false]
      intro c hc
      simp [(escapeSafe_facts _ (hsafe _ hc)).2.2.2.2.2]
    have h2 : (utf8 "/").any isCTL = false := by decide
    simp only [entityURL, List.any_append, h1, h2, Bool.or_false]

set_option maxRecDepth 100000 in
/-- The bytes of the parts of a URL in plain form are bytes of plain form, which are no
`?`, no `#` and no control byte. -/
theorem plainByte_facts : ∀ c : Byte,
    (hostByte c = true → plainByte c = true) ∧ (digitOnly c = true → plainByte c = true) ∧
      (pathByte c = true → plainByte c = true) ∧
      (plainByte c = true → c ≠ byteOf 63 ∧ c ≠ byteOf 35 ∧ isCTL c = false) := by
  decide

/-- A text that starts with a prefix is the prefix followed by the rest. -/
theorem dropPrefix_eq : ∀ (p s rest : GoString), dropPrefix p s = some rest → s = p ++ rest
  | [], s, rest, h => by
    simp only [dropPrefix, Option.some.injEq] at h
    simp [h]
  | _ :: _, [], _, h => by simp [dropPrefix] at h
  | a :: p, b :: s, rest, h => by
    simp only [dropPrefix] at h
    split at h
    · rename_i hab
      rw [hab, dropPrefix_eq p s rest h]
      rfl
    · cases h

/-- A path in plain form holds bytes of plain form only. -/
theorem plainPath_bytes (p : GoString) (h : plainPath p = true) :
    ∀ c ∈ p, plainByte c = true := by
  intro c hc
  simp only [plainPath, Bool.and_eq_true, List.all_eq_true] at h
  exact (plainByte_facts c).2.2.1 (h.2 c hc)

/-- What follows `//` in a URL in plain form holds bytes of plain form only. -/
theorem plainAuthority_bytes (rest : GoString) (h : plainAuthority rest = true) :
    ∀ c ∈ rest, plainByte c = true := by
  intro c hc
  rw [← List.takeWhile_append_dropWhile hostByte rest, List.mem_append] at hc
  simp only [plainAuthority, Bool.and_eq_true] at h
  rcases hc with hc | hc
  · exact (plainByte_facts c).1 (List.mem_takeWhile_imp hc)
  · cases hd : rest.dropWhile hostByte with
    | nil => rw [hd] at hc; cases hc
    | cons x t =>
      rw [hd] at hc
      have h2 := h.2
      rw [hd] at h2
      simp only at h2
      split at h2
      · rename_i hx
        simp only [Bool.and_eq_true] at h2
        rcases List.mem_cons.mp hc with rfl | hc
        · rw [hx]; decide
        · rw [← List.takeWhile_append_dropWhile digitOnly t, List.mem_append] at hc
          rcases hc with hc | hc
          · exact (plainByte_facts c).2.1 (List.mem_takeWhile_imp hc)
          · exact plainPath_bytes _ h2.2 c hc
      · exact plainPath_bytes _ h2 c hc

set_option maxRecDepth 100000 in
/-- The two scheme prefixes hold bytes of plain form only. -/
theorem scheme_prefix_bytes :
    (∀ c ∈ utf8 "https://", plainByte c = true) ∧ (∀ c ∈ utf8 "http://", plainByte c = true) := by
  decide

/-- A URL in plain form holds bytes of plain form only. -/
theorem plainURL_bytes (u : GoString) (h : plainURL u = true) :
    ∀ c ∈ u, plainByte c = true := by
  have hpre : ∀ (p rest : GoString), (∀ c ∈ p, plainByte c = true) →
      dropPrefix p u = some rest → plainAuthority rest = true →
      ∀ c ∈ u, plainByte c = true := by
    intro p rest hp hd ha c hc
    rw [dropPrefix_eq p u rest hd, List.mem_append] at hc
    rcases hc with hc | hc
    · exact hp c hc
    · exact plainAuthority_bytes rest ha c hc
  unfold plainURL at h
  split at h
  · rename_i rest hd
    exact hpre _ rest scheme_prefix_bytes.1 hd h
  · split at h
    · rename_i rest hd
      exact hpre _ rest scheme_prefix_bytes.2 hd h
    · cases h

/-- A URL in plain form has no query, no fragment and no control byte. -/
theorem plainURL_plain (u : GoString) (h : plainURL u = true) :
    byteOf 63 ∉ u ∧ byteOf 35 ∉ u ∧ u.any isCTL = false := by
  have hb := plainURL_bytes u h
  refine ⟨fun hc => ((plainByte_facts _).2.2.2 (hb _ hc)).1 rfl,
    fun hc => ((plainByte_facts _).2.2.2 (hb _ hc)).2.1 rfl, ?_⟩
  rw [List.any_eq_false]
  intro c hc
  simp [((plainByte_facts c).2.2.2 (hb c hc)).2.2]

/-- C7 (amended): for every `RevisionsCollection` whose URL `u` is in plain form (scheme
`http` or `https`, host, optional port and a path of unreserved bytes and slashes, so
without query string and without fragment), every id and every caller-supplied params
value, `Delete(id, params)` sends the request `GET u/{id}?_method=DELETE`: the query
string is the single pair `_method=DELETE` and nothing else, the header
`X-HTTP-Method-Override: DELETE` is set, and the value returned is the boolean that the
body was decoded into. -/
theorem revisions_delete_sends_method_pair_only (col : RevisionsCollection) (id : Int)
    (params : GoValue) (send : Request → Outcome Bool) (hplain : plainURL col.url = true) :
    ∃ r, col.deleteRequest id params = .ok r ∧
      r.method = utf8 "GET" ∧
      r.url.String = col.url ++ utf8 "/" ++ fmtInt id ++ utf8 "?_method=DELETE" ∧
      r.url.rawQuery = utf8 "_method=DELETE" ∧
      r.url.Query = [(utf8 "_method", utf8 "DELETE")] ∧
      r.url.fragment = [] ∧
      Header.Get r.header (utf8 "X-HTTP-Method-Override") = some (utf8 "DELETE") ∧
      (col.Delete send id params).1 = (send r).result := by
  obtain ⟨hq, hf, hc⟩ := plainURL_plain col.url hplain
  obtain ⟨hq2, hf2, hc2⟩ := entityURL_plain col.url id hq hf
  have hraw : Values.Encode
      (sortPairs (addFlat [] (mapParams (.str (utf8 "force=true")))) ++
        [(utf8 "_method", utf8 "DELETE")]) = utf8 "_method=DELETE" := by decide
  have hr := Delete_plain col.client (entityURL col.url id) (.str (utf8 "force=true"))
    hq2 hf2 (hc2.trans hc)
  rw [hraw] at hr
  refine ⟨_, hr, by rw [authorize_method], ?_, by rw [authorize_url], ?_,
    by rw [authorize_url], ?_, ?_⟩
  · rw [authorize_url]
    have h1 : utf8 "?_method=DELETE" = byteOf 63 :: utf8 "_method=DELETE" := by decide
    have h2 : utf8 "_method=DELETE" ≠ [] := by decide
    simp [URL.String, h1, h2, entityURL]
  · rw [authorize_url]
    show ParseQuery (utf8 "_method=DELETE") = _
    decide
  · simp only [authorize_header]
    decide
  · have hd : col.deleteRequest id params = _ := hr
    simp only [RevisionsCollection.Delete, hd, exchange]

/-- C7 (amended), at an instance: revision 42 of page 1, with params that ask for more. -/
theorem revisions_delete_sends_method_pair_only_witness :
    plainURL (utf8 "http://h/wp-json/wp/v2/pages/1/revisions") = true ∧
    ∃ r, RevisionsCollection.deleteRequest
        ⟨NewClient ⟨utf8 "http://h/wp-json/wp/v2", false, [], []⟩,
          utf8 "http://h/wp-json/wp/v2/pages/1/revisions", .nil, CollectionPages⟩ 42
        (.record [(utf8 "force", .bool false)]) = .ok r ∧
      r.method = utf8 "GET" ∧
      r.url.String = utf8 "http://h/wp-json/wp/v2/pages/1/revisions" ++ utf8 "/" ++ fmtInt 42 ++
        utf8 "?_method=DELETE" ∧
      r.url.rawQuery = utf8 "_method=DELETE" ∧
      r.url.Query = [(utf8 "_method", utf8 "DELETE")] ∧
      r.url.fragment = [] ∧
      Header.Get r.header (utf8 "X-HTTP-Method-Override") = some (utf8 "DELETE") ∧
      (RevisionsCollection.Delete
        ⟨NewClient ⟨utf8 "http://h/wp-json/wp/v2", false, [], []⟩,
          utf8 "http://h/wp-json/wp/v2/pages/1/revisions", .nil, CollectionPages⟩
        (fun _ => ⟨some 200, some (utf8 "true"), none, true⟩) 42
        (.record [(utf8 "force", .bool false)])).1 =
        ((fun _ => ⟨some 200, some (utf8 "true"), none, true⟩ : Request → Outcome Bool)
          r).result :=
  ⟨by decide,
    revisions_delete_sends_method_pair_only
      ⟨NewClient ⟨utf8 "http://h/wp-json/wp/v2", false, [], []⟩,
        utf8 "http://h/wp-json/wp/v2/pages/1/revisions", .nil, CollectionPages⟩ 42
      (.record [(utf8 "force", .bool false)])
      (fun _ => ⟨some 200, some (utf8 "true"), none, true⟩) (by decide)⟩

/-- C7, as stated, fails on the revisions of a page of a client whose base URL has a
fragment and no query string.  With the base URL `http://h#top` the revisions collection
of page 1 has the URL `u = http://h#top/pages/1/revisions`; `Delete(42, nil)` appends the
id after the fragment and sends `GET http://h?_method=DELETE#top/pages/1/revisions/42`,
a request for the root of the host, not `GET u/42?_method=DELETE`. -/
theorem revisions_delete_id_lost_after_fragment :
    utf8 "http://h#top/pages/1/revisions" =
      (NewClient ⟨utf8 "http://h#top", false, [], []⟩).baseURL ++ utf8 "/" ++ CollectionPages ++
        utf8 "/" ++ fmtInt 1 ++ utf8 "/" ++ CollectionRevisions ∧
    byteOf 63 ∉ utf8 "http://h#top/pages/1/revisions" ∧
    ∃ r, RevisionsCollection.deleteRequest
        ⟨NewClient ⟨utf8 "http://h#top", false, [], []⟩, utf8 "http://h#top/pages/1/revisions",
          .nil, CollectionPages⟩ 42 .nil = .ok r ∧
      r.url.String = utf8 "http://h?_method=DELETE#top/pages/1/revisions/42" ∧
      r.url.String ≠ utf8 "http://h#top/pages/1/revisions" ++ utf8 "/" ++ fmtInt 42 ++
        utf8 "?_method=DELETE" ∧
      r.url.head = utf8 "http://h" ∧
      r.url.fragment = utf8 "top/pages/1/revisions/42" := by
  exact ⟨by decide, by decide, _, rfl, by decide, by decide, by decide, by decide⟩

/-! ## Parameters of `Client.List` that are not flattened -/

/-- C11: a `url.Values` whose encoding is empty is flattened again by `Client.List`.  With
`url.Values{"k": nil}`, whose `Encode()` is the empty text, the request carries the query
`k=%3Cnil%3E` (the pair `k=<nil>`), a pair that the value set does not hold.  With an
empty non-nil list under `k` the query stays empty, and whenever `Encode()` is not empty
the query is exactly `Encode()`. -/
theorem list_flattens_values_of_empty_encoding (client : Client) :
    encodeValues [(utf8 "k", none)] = [] ∧
    (∃ r, client.List (utf8 "http://h/wp-json/wp/v2/posts")
        (.urlValues [(utf8 "k", none)]) = .ok r ∧
      r.url.rawQuery = utf8 "k=%3Cnil%3E" ∧ r.url.Query = [(utf8 "k", utf8 "<nil>")]) ∧
    (∃ r, client.List (utf8 "http://h/wp-json/wp/v2/posts")
        (.urlValues [(utf8 "k", some [])]) = .ok r ∧
      r.url.rawQuery = []) ∧
    (∀ (url : GoString) (u : URL) (pVal : List (GoString × Option (List GoString))),
      urlParse url = .ok u → encodeValues pVal ≠ [] →
      ∃ r, client.List url (.urlValues pVal) = .ok r ∧ r.url.rawQuery = encodeValues pVal) := by
  refine ⟨by decide, ⟨_, rfl, ?_, ?_⟩, ⟨_, rfl, ?_⟩, ?_⟩
  · rw [authorize_url]; decide
  · rw [authorize_url]; decide
  · rw [authorize_url]; decide
  · intro url u pVal hu hne
    have hv : validMethod (utf8 "GET") = true := by decide
    simp only [Client.List, NewRequest_of_parse none hv hu]
    refine ⟨_, rfl, ?_⟩
    rw [authorize_url]
    simp [GoValue.isNil, Request.setHeader, Request.setRawQuery, hne]

/-- C12: on a URL that has a query string already, `Client.List` sends none of the pairs
of a `map[string]string`.  With the URL `.../posts?page=2` and the map `{"k": "v"}` the
query of the request is `page=2`; the pair `k=v` is sent only when the URL has no query
string.  In general the URL of the request is the parsed URL, unchanged. -/
theorem list_drops_string_map_on_url_with_query (client : Client) :
    (∃ r, client.List (utf8 "http://h/wp-json/wp/v2/posts?page=2")
        (.mapSS [(utf8 "k", utf8 "v")]) = .ok r ∧
      r.url.rawQuery = utf8 "page=2" ∧ r.url.Query = [(utf8 "page", utf8 "2")] ∧
      (utf8 "k", utf8 "v") ∉ r.url.Query) ∧
    (∃ r, client.List (utf8 "http://h/wp-json/wp/v2/posts")
        (.mapSS [(utf8 "k", utf8 "v")]) = .ok r ∧
      r.url.rawQuery = utf8 "k=v" ∧ r.url.Query = [(utf8 "k", utf8 "v")]) ∧
    (∀ (url : GoString) (u : URL) (m : List (GoString × GoString)),
      urlParse url = .ok u → u.rawQuery ≠ [] →
      ∃ r, client.List url (.mapSS m) = .ok r ∧ r.url = u) := by
  refine ⟨⟨_, rfl, ?_, ?_, ?_⟩, ⟨_, rfl, ?_, ?_⟩, ?_⟩
  · rw [authorize_url]; decide
  · rw [authorize_url]; decide
  · rw [authorize_url]; decide
  · rw [authorize_url]; decide
  · rw [authorize_url]; decide
  · intro url u m hu hne
    have hv : validMethod (utf8 "GET") = true := by decide
    simp only [Client.List, NewRequest_of_parse none hv hu]
    refine ⟨_, rfl, ?_⟩
    rw [authorize_url]
    simp [GoValue.isNil, Request.setHeader, hne]

/-! ## The user of `UsersCollection.Me` -/

/-- C13: `UsersCollection.Me` returns the decoded user as it is, without `setCollection`.
The decoding cannot fill the unexported field `collection`, so when the exchange leaves
it unset the user returned has no back-reference, `Meta()` on it is nil and the
user is not bound to the collection; `UsersCollection.Get` binds the same user. -/
theorem me_returns_user_without_collection (col : UsersCollection)
    (send : Request → Outcome User) (params : GoValue) (id : Int) :
    (col.Me send params).1 = (col.Me send params).2.result ∧
    (col.Me (fun r => { send r with
        result := { (send r).result with collection := none } }) params).1.collection = none ∧
    (col.Me (fun r => { send r with
        result := { (send r).result with collection := none } }) params).1.Meta = .ok none ∧
    ¬ boundTo col (col.Me (fun r => { send r with
        result := { (send r).result with collection := none } }) params).1 ∧
    boundTo col (col.Get (fun r => { send r with
        result := { (send r).result with collection := none } }) id params).1 := by
  have hcol : (col.Me (fun r => { send r with
      result := { (send r).result with collection := none } }) params).1.collection = none := by
    simp only [UsersCollection.Me]
    cases col.client.Get (col.url ++ utf8 "/me") params <;> rfl
  refine ⟨rfl, hcol, ?_, ?_, boundTo_setCollection _ _⟩
  · simp [User.Meta, hcol]
  · intro h
    have h1 := h.1
    rw [hcol] at h1
    cases h1

/-! ## Values and pointers to values as content -/

/-- The encoding of a value is the encoding of what `unpackInterfacePointer` makes of it. -/
theorem jsonMarshal_unpack (v : GoValue) :
    jsonMarshal (unpackInterfacePointer v) = jsonMarshal v := by
  cases v <;> simp [unpackInterfacePointer, jsonMarshal]

/-- C14: for every value `v`, `unpackInterfacePointer` of a pointer to `v` is `v`, and
`unpackInterfacePointer(v)` is `v` itself when `v` is no pointer; so `Client.Create` and
`Client.Update` build the same request, with the same body, for `v` and for a pointer to
`v`.  The body is the encoding of `v` whenever the URL parses and `v` encodes. -/
theorem pointer_and_value_give_same_body (client : Client) (url : GoString) (v : GoValue) :
    unpackInterfacePointer (.ptr v) = v ∧
    (v.isPtr = false → unpackInterfacePointer v = v) ∧
    client.Create url (.ptr v) = client.Create url v ∧
    client.Update url (.ptr v) = client.Update url v ∧
    (∀ (u : URL) (body : GoString), urlParse url = .ok u → jsonMarshal v = some body →
      (∃ r c, client.Create url (.ptr v) = .ok r ∧ client.Create url v = .ok c ∧
        r.body = some body ∧ c.body = some body) ∧
      ∃ r c, client.Update url (.ptr v) = .ok r ∧ client.Update url v = .ok c ∧
        r.body = some body ∧ c.body = some body) := by
  have hc : client.Create url (.ptr v) = client.Create url v := by
    simp only [Client.Create, jsonMarshal_unpack v]
    rfl
  have hu : client.Update url (.ptr v) = client.Update url v := by
    simp only [Client.Update, jsonMarshal_unpack v]
    rfl
  refine ⟨rfl, ?_, hc, hu, ?_⟩
  · intro hp
    cases v <;> first | rfl | cases hp
  · intro u body hparse hm
    have hm2 : jsonMarshal (unpackInterfacePointer (.ptr v)) = some body := hm
    constructor
    · obtain ⟨r, hr⟩ := Create_of_parse client hparse hm2
      obtain ⟨u2, _, hr2⟩ := Create_ok hr
      have hb : r.body = some body := by rw [hr2, authorize_body]; exact hm2
      exact ⟨r, r, hr, hc ▸ hr, hb, hb⟩
    · obtain ⟨r, hr⟩ := Update_of_parse client hparse hm2
      obtain ⟨u2, _, hr2⟩ := Update_ok hr
      have hb : r.body = some body := by rw [hr2, authorize_body]; exact hm2
      exact ⟨r, r, hr, hu ▸ hr, hb, hb⟩

/-- C14, at an instance: the record `{"name": "x"}` and a pointer to it, sent to a users
URL. -/
theorem pointer_and_value_give_same_body_witness :
    unpackInterfacePointer (.ptr (.record [(utf8 "name", .str (utf8 "x"))])) =
      .record [(utf8 "name", .str (utf8 "x"))] ∧
    ((GoValue.record [(utf8 "name", .str (utf8 "x"))]).isPtr = false →
      unpackInterfacePointer (.record [(utf8 "name", .str (utf8 "x"))]) =
        .record [(utf8 "name", .str (utf8 "x"))]) ∧
    (NewClient ⟨utf8 "http://h", false, [], []⟩).Create (utf8 "http://h/users")
        (.ptr (.record [(utf8 "name", .str (utf8 "x"))])) =
      (NewClient ⟨utf8 "http://h", false, [], []⟩).Create (utf8 "http://h/users")
        (.record [(utf8 "name", .str (utf8 "x"))]) ∧
    (NewClient ⟨utf8 "http://h", false, [], []⟩).Update (utf8 "http://h/users")
        (.ptr (.record [(utf8 "name", .str (utf8 "x"))])) =
      (NewClient ⟨utf8 "http://h", false, [], []⟩).Update (utf8 "http://h/users")
        (.record [(utf8 "name", .str (utf8 "x"))]) ∧
    (∀ (u : URL) (body : GoString), urlParse (utf8 "http://h/users") = .ok u →
      jsonMarshal (.record [(utf8 "name", .str (utf8 "x"))]) = some body →
      (∃ r c, (NewClient ⟨utf8 "http://h", false, [], []⟩).Create (utf8 "http://h/users")
          (.ptr (.record [(utf8 "name", .str (utf8 "x"))])) = .ok r ∧
        (NewClient ⟨utf8 "http://h", false, [], []⟩).Create (utf8 "http://h/users")
          (.record [(utf8 "name", .str (utf8 "x"))]) = .ok c ∧
        r.body = some body ∧ c.body = some body) ∧
      ∃ r c, (NewClient ⟨utf8 "http://h", false, [], []⟩).Update (utf8 "http://h/users")
          (.ptr (.record [(utf8 "name", .str (utf8 "x"))])) = .ok r ∧
        (NewClient ⟨utf8 "http://h", false, [], []⟩).Update (utf8 "http://h/users")
          (.record [(utf8 "name", .str (utf8 "x"))]) = .ok c ∧
        r.body = some body ∧ c.body = some body) :=
  pointer_and_value_give_same_body _ _ _

end Wordpress
